import Mathlib

/-!
Verification of the core of the `morpheus` Greek/Latin morphology toolkit
(`morpheuslib.py`, `morpheuslib2.py`): a shallow embedding of the tokenizer,
the BetaCode/Unicode transliteration engine, the lookup/cache/retry layer and
the analysis normalizer, with theorems settling the specification claims.

Python strings are modelled as `List Char`; Python exceptions are modelled by
`Except PyErr`; the in-memory `dict` of the caches is modelled as an
association list with Python's insert-or-replace update.
-/

/-- Python exceptions raised by the embedded code. -/
inductive PyErr where
  | indexError
  | valueError
  | keyError
  | attributeError
  | integrityError
  | operationalError
  | langError
  | unboundLocalError
  | urlError (msg : String)
deriving DecidableEq, Repr

namespace BetaCode

/-- Model of Python `str.rfind(c)` restricted to single characters: index of the
last occurrence of `c`, `none` when absent (Python returns `-1`; the two call
sites slice with `word[:i] + word[(i+1):]`, which for `i = -1` is
`word[:-1] + word`, handled at the call site below). -/
def rfindAux (c : Char) : List Char → Option Nat
  | [] => none
  | x :: xs =>
    match rfindAux c xs with
    | some i => some (i + 1)
    | none => if x = c then some 0 else none

/-- Embedding of `BetaCode.fix_2nd_acute` (morpheuslib2.py, lines 443-458):
count acute (`/`) and circumflex (`=`) accents; if more than one, delete the
character at `word.rfind('/')`. When there is no `/` at all, Python's
`rfind` returns `-1` and the slices `word[:-1] + word[(-1+1):]` evaluate to
`word[:-1] + word`, reproduced in the `none` branch. -/
def fix_2nd_acute (word : List Char) : List Char :=
  if word.count '/' + word.count '=' > 1 then
    match rfindAux '/' word with
    | some i => word.take i ++ word.drop (i + 1)
    | none => word.dropLast ++ word
  else word

end BetaCode

namespace UniGreek

/-- `UniGreek.greek_ll` (morpheuslib2.py line 462): the code points
U+03B1..U+03C9 followed by digamma U+03DD and lunate sigma U+03F2. -/
def greek_ll : List Char :=
  (List.range 25).map (fun i => Char.ofNat (0x3B1 + i)) ++
    [Char.ofNat 0x3DD, Char.ofNat 0x3F2]

/-- `UniGreek.greek_diac` (line 466): the combining marks acute, grave, rough
breathing, smooth breathing, perispomeni, diaeresis, ypogegrammeni, and the
(spacing) koronis U+1FBD. -/
def greek_diac : List Char :=
  [Char.ofNat 0x301, Char.ofNat 0x300, Char.ofNat 0x314, Char.ofNat 0x313,
    Char.ofNat 0x342, Char.ofNat 0x308, Char.ofNat 0x345, Char.ofNat 0x1FBD]

/-- `UniGreek.greek_lu = greek_ll.upper()`: Python `str.upper` maps
U+03B1..U+03C1 to U+0391..U+03A1, both final and medial sigma to U+03A3,
U+03C4..U+03C9 to U+03A4..U+03A9, digamma to U+03DC and lunate sigma to
U+03F9. -/
def greek_lu : List Char :=
  (List.range 17).map (fun i => Char.ofNat (0x391 + i)) ++
    [Char.ofNat 0x3A3, Char.ofNat 0x3A3] ++
    (List.range 6).map (fun i => Char.ofNat (0x3A4 + i)) ++
    [Char.ofNat 0x3DC, Char.ofNat 0x3F9]

/-- `UniGreek.greek = greek_ll + greek_lu + greek_diac` (line 472). -/
def greek : List Char := greek_ll ++ greek_lu ++ greek_diac

def final_sigma : Char := Char.ofNat 0x3C2

def sigma : Char := Char.ofNat 0x3C3

def lunate_sigma : Char := Char.ofNat 0x3F2

def coronis : Char := Char.ofNat 0x1FBD

end UniGreek

/-- Model of Python `str.upper` on one character, for the characters this
development manipulates (ASCII plus the `greek_ll` alphabet). -/
def pyUpper (c : Char) : Char :=
  match (UniGreek.greek_ll.zip UniGreek.greek_lu).find? (fun p => p.1 == c) with
  | some p => p.2
  | none => c.toUpper

/-- Model of Python `str.lower` on one character, for the characters this
development manipulates. `Σ`.lower() is medial `σ`, matching the later of the
two `Σ` entries of the zipped table. -/
def pyLower (c : Char) : Char :=
  match ((UniGreek.greek_lu.zip UniGreek.greek_ll).reverse.find? (fun p => p.1 == c)) with
  | some p => p.2
  | none => c.toLower

/-- Model of Python `str.isalpha` on one character, for the characters this
development manipulates: ASCII letters and the Greek letters of the
`greek_ll`/`greek_lu` alphabets. Combining marks and the koronis are not
alphabetic. -/
def pyIsAlpha (c : Char) : Bool :=
  c.isAlpha || UniGreek.greek_ll.contains c || UniGreek.greek_lu.contains c

/-- Model of Python `str.isupper` on one character, for the characters this
development manipulates. -/
def pyIsUpper (c : Char) : Bool :=
  c.isUpper || UniGreek.greek_lu.contains c

/-- Model of Python `str.maketrans`/`str.translate` for the one-character
tables used here: with duplicated keys the last entry wins (as in
`dict`-construction), and characters absent from the table map to
themselves. -/
def transLookup (keys vals : List Char) (c : Char) : Char :=
  match ((keys.zip vals).reverse.find? (fun p => p.1 == c)) with
  | some p => p.2
  | none => c

/-- Model of Python `str.rstrip()` (no argument: strip trailing
whitespace). -/
def rstripSpace (l : List Char) : List Char :=
  (l.reverse.dropWhile (fun c => c.isWhitespace)).reverse

/-- Canonical combining class of the characters this development manipulates:
230 for the combining accents/breathings/diaeresis/perispomeni, 240 for
combining ypogegrammeni U+0345, 0 otherwise (letters and the spacing koronis
U+1FBD). -/
def ccc (c : Char) : Nat :=
  if c = Char.ofNat 0x345 then 240
  else if ([Char.ofNat 0x301, Char.ofNat 0x300, Char.ofNat 0x314,
      Char.ofNat 0x313, Char.ofNat 0x342, Char.ofNat 0x308].contains c) then 230
  else 0

/-- Insert a combining mark into an already canonically ordered run: the mark
moves right past marks of strictly smaller combining class and stops at a
starter or at a mark of greater-or-equal class (stable order). -/
def insertMark (c : Char) : List Char → List Char
  | [] => [c]
  | d :: ds =>
    if ccc d = 0 ∨ ccc c ≤ ccc d then c :: d :: ds
    else d :: insertMark c ds

/-- Model of `unicodedata.normalize('NFD', s)` for the strings this
development manipulates, whose characters are already fully decomposed (the
transliteration tables emit base letters and separate combining marks): NFD
then reduces to the canonical reordering of combining-mark runs by combining
class, which this fold performs stably. -/
def nfd (s : List Char) : List Char :=
  s.foldr (fun c acc => if ccc c = 0 then c :: acc else insertMark c acc) []

namespace BetaCode

/-- `BetaCode.beta_ll` (line 284). Note the three `s` entries (final,
medial, lunate sigma positions of the Unicode table). -/
def beta_ll : List Char := "abgdezhqiklmncoprsstufxywvs".toList

/-- `BetaCode.beta_lu = beta_ll.upper()` (line 285). -/
def beta_lu : List Char := beta_ll.map (fun c => c.toUpper)

/-- `BetaCode.beta_diac` (line 286): `/ \ ( ) = + | '` (the last entry is the
apostrophe, code point 39). -/
def beta_diac : List Char :=
  ['/', '\\', '(', ')', '=', '+', '|', Char.ofNat 39]

/-- `BetaCode.beta = beta_ll + beta_lu + beta_diac` (line 287). -/
def beta : List Char := beta_ll ++ beta_lu ++ beta_diac

def uc_shift : Char := '*'

/-- The BetaCode-to-Unicode character translator
`str.maketrans(BetaCode.beta, UniGreek.greek)` (line 300). -/
def trans (c : Char) : Char := transLookup beta UniGreek.greek c

/-- `BetaCode.is_letter` (line 314): membership in `beta + uc_shift`. -/
def is_letter (c : Char) : Bool := (beta ++ [uc_shift]).contains c

/-- `BetaCode.cleanse` (line 423): keep only the alphabetic characters. -/
def cleanse (s : List Char) : List Char := s.filter pyIsAlpha

/-- `BetaCode.fix_grave` (line 432): replace every grave `\` by acute `/`. -/
def fix_grave (word : List Char) : List Char :=
  word.map (fun c => if c = '\\' then '/' else c)

/-- Helper of `BetaCode.to_unicode` modelling `conv_uc`'s scanning loop
(lines 364-371): after the `*` marker, collect the non-alphabetic diacritics
up to and including the following letter; running off the end of the string
is Python's `IndexError`. -/
def convUcScan : List Char → Except PyErr (List Char × Char × List Char)
  | [] => .error .indexError
  | c :: cs =>
    if pyIsAlpha c then .ok ([], c, cs)
    else
      match convUcScan cs with
      | .error e => .error e
      | .ok (bb, l, rest) => .ok (c :: bb, l, rest)

/-- The character written by `conv_lc` (lines 387-407) for one lower-case
BetaCode character: `s`/`S` become (lunate) sigma, everything else goes
through the translation table. -/
def convLcChar (lunate : Bool) (c : Char) : Char :=
  if c = 's' ∨ c = 'S' then (if lunate then UniGreek.lunate_sigma else UniGreek.sigma)
  else trans c

/-- The letter written by `conv_uc` (lines 374-380) for the upper-cased
letter following a `*` marker. -/
def convUcChar (lunate : Bool) (c : Char) : Char :=
  if c = 's' ∨ c = 'S' then
    (if lunate then pyUpper UniGreek.lunate_sigma else pyUpper UniGreek.sigma)
  else pyUpper (trans c)

/-- The index-driven `while` loop of `BetaCode.to_unicode` (lines 333-342),
written with an explicit fuel argument so that the function is structurally
recursive; every recursive call consumes at least one input character, so
fuel equal to the input length (as supplied by `to_unicode`) never runs
out. -/
def toUnicodeCore (lunate : Bool) : Nat → List Char → Except PyErr (List Char)
  | _, [] => .ok []
  | 0, _ :: _ => .error .indexError
  | fuel + 1, c :: rest =>
    if c = uc_shift then
      match convUcScan rest with
      | .error e => .error e
      | .ok (bb, l, rest') =>
        match toUnicodeCore lunate fuel rest' with
        | .error e => .error e
        | .ok tail => .ok (convUcChar lunate l :: (bb.map trans ++ tail))
    else
      match toUnicodeCore lunate fuel rest with
      | .error e => .error e
      | .ok tail =>
        if pyIsAlpha c then .ok (convLcChar lunate c :: tail)
        else .ok (trans c :: tail)

/-- Embedding of `BetaCode.to_unicode` (lines 322-349): convert, strip
trailing whitespace from the buffer, and rewrite a trailing medial sigma to
the word-final sigma; `o[-1]` on an empty result is Python's `IndexError`. -/
def to_unicode (s : List Char) (lunate : Bool) : Except PyErr (List Char) :=
  match toUnicodeCore lunate s.length s with
  | .error e => .error e
  | .ok o0 =>
    let o := rstripSpace o0
    match o.getLast? with
    | none => .error .indexError
    | some x =>
      if x = UniGreek.sigma then .ok (o.dropLast ++ [UniGreek.final_sigma])
      else .ok o

end BetaCode

/-- The final-sigma rewrite performed at the end of `BetaCode.to_unicode`:
a trailing medial sigma becomes the word-final sigma. -/
def sigmaFix (o : List Char) : List Char :=
  if o.getLast? = some UniGreek.sigma then o.dropLast ++ [UniGreek.final_sigma]
  else o

namespace UniGreek

/-- The Unicode-to-BetaCode character translator
`str.maketrans(UniGreek.greek, BetaCode.beta)` (line 494). -/
def trans (c : Char) : Char := transLookup greek BetaCode.beta c

/-- `UniGreek.is_letter` (line 500): a cased letter whose name says GREEK, or
the koronis; modelled as membership in the Greek alphabet tables. -/
def is_letter (c : Char) : Bool :=
  greek_ll.contains c || greek_lu.contains c || c = coronis

/-- Helper of `UniGreek.to_betacode` modelling `conv_uc`'s scanning loop
(lines 540-545): after an upper-case letter, collect the following
non-alphabetic combining marks; the letter that stops the scan is not
consumed, and running off the end of the string is Python's `IndexError`. -/
def scanMarks : List Char → Except PyErr (List Char × List Char)
  | [] => .error .indexError
  | c :: cs =>
    if pyIsAlpha c then .ok ([], c :: cs)
    else
      match scanMarks cs with
      | .error e => .error e
      | .ok (bb, rest) => .ok (c :: bb, rest)

/-- The characters written by `conv_lc` (lines 556-567) for one lower-case
character: an invalid mode writes nothing (the method has no `else`
branch). -/
def convLcB (mode : String) (c : Char) : List Char :=
  if mode = "upper" then [pyUpper (trans c)]
  else if mode = "lower" then [pyLower (trans c)]
  else if mode = "preserve" then [trans c]
  else []

/-- The letter written by `conv_uc` (lines 546-553) for an upper-case
character, or Python's `ValueError` for an invalid mode. -/
def convUcB (mode : String) (c : Char) : Except PyErr Char :=
  if mode = "upper" then .ok (pyUpper (trans c))
  else if mode = "lower" then .ok (pyLower (trans c))
  else if mode = "preserve" then .ok (trans c)
  else .error .valueError

/-- The index-driven `while` loop of `UniGreek.to_betacode` (lines 521-531),
fuelled like `BetaCode.toUnicodeCore`. -/
def toBetacodeCore (mode : String) : Nat → List Char → Except PyErr (List Char)
  | _, [] => .ok []
  | 0, _ :: _ => .error .indexError
  | fuel + 1, c :: t =>
    if pyIsUpper c then
      match scanMarks t with
      | .error e => .error e
      | .ok (bb, rest) =>
        match convUcB mode c with
        | .error e => .error e
        | .ok letter =>
          match toBetacodeCore mode fuel rest with
          | .error e => .error e
          | .ok tail =>
            .ok (BetaCode.uc_shift :: (bb.map trans ++ (letter :: tail)))
    else
      match toBetacodeCore mode fuel t with
      | .error e => .error e
      | .ok tail =>
        if pyIsAlpha c then .ok (convLcB mode c ++ tail)
        else .ok (trans c :: tail)

/-- Embedding of `UniGreek.to_betacode` (lines 507-534): NFD-normalize, then
convert, then strip trailing whitespace. -/
def to_betacode (s : List Char) (mode : String) : Except PyErr (List Char) :=
  match toBetacodeCore mode (nfd s).length (nfd s) with
  | .error e => .error e
  | .ok o => .ok (rstripSpace o)

/-- Embedding of `UniGreek.fix_2nd_acute` (lines 595-610): NFD-normalize,
count combining acute U+0301 and perispomeni U+0342 accents; if more than
one, delete the character at `w.rfind(acute)` (Python's `rfind` returns `-1`
when no acute is present, and the slices `w[:i] + w[(i+1):]` then evaluate
to `w[:-1] + w`, reproduced in the `none` branch) and return the result
re-composed with `unicodedata.normalize('NFC', r)`; otherwise return the
original word. The NFC recomposition map is taken as the parameter `nfc_fn`;
the theorems about this function assume of it only the property that defines
a normalization form — that it preserves canonical equivalence, i.e.
`nfd (nfc_fn x) = nfd x`. -/
def fix_2nd_acute (nfc_fn : List Char → List Char) (word : List Char) :
    List Char :=
  if (nfd word).count (Char.ofNat 0x301) + (nfd word).count (Char.ofNat 0x342)
      > 1 then
    match BetaCode.rfindAux (Char.ofNat 0x301) (nfd word) with
    | some i => nfc_fn ((nfd word).take i ++ (nfd word).drop (i + 1))
    | none => nfc_fn ((nfd word).dropLast ++ nfd word)
  else word

end UniGreek

/-- The round trip of spec claim C9:
`to_unicode(to_betacode(to_unicode(s), mode))`. -/
def roundTrip (s : List Char) (mode : String) (lunate : Bool) :
    Except PyErr (List Char) :=
  match BetaCode.to_unicode s lunate with
  | .error e => .error e
  | .ok u =>
    match UniGreek.to_betacode u mode with
    | .error e => .error e
    | .ok b => BetaCode.to_unicode b lunate

/-- Embedding of `url_form` (morpheuslib2.py, lines 120-140): the canonical
lookup form of a word. -/
def url_form (word : List Char) (lang : String) (greek_mode : Option String) :
    Except PyErr (List Char) :=
  if lang = "la" then .ok (word.map pyLower)
  else if lang = "greek" then
    if greek_mode = some "betacode" then
      .ok ((BetaCode.cleanse word).map pyLower)
    else if greek_mode = some "unicode" then
      match UniGreek.to_betacode word "lower" with
      | .error e => .error e
      | .ok b => .ok (BetaCode.cleanse b)
    else .error .langError
  else .error .langError

/-- One child element of an `<analysis>` element: a tag and its text (the
text of an XML element may be `None`). -/
structure XmlElem where
  tag : String
  text : Option String
deriving DecidableEq, Repr

/-- `elem.find(tag)`: the first child with the given tag, or `None`. -/
def findElem (l : List XmlElem) (f : String) : Option XmlElem :=
  l.find? (fun e => e.tag == f)

/-- A Python value reachable from `Analysis.get_feature`: either a string (or
`None`), from element text and attributes, or an integer, from the `Word`
ordinals. -/
inductive Val where
  | vs : Option String → Val
  | vn : Nat → Val
deriving DecidableEq, Repr

namespace Morpheus2

/-- Embedding of `morpheuslib2.Word` (lines 824-861). The surface text is a
`List Char`; `term` is the terminator observed with the word, if any. -/
structure Word where
  label : Option String
  word : List Char
  lang : String
  greek_mode : Option String
  term : Option Char
  w : Nat
  c : Nat
  s : Nat
deriving DecidableEq, Repr

/-- `Word.features` (line 839). -/
def wordFeatures : List String := ["label", "word", "w", "c", "s"]

/-- Embedding of `morpheuslib2.Analysis` (lines 1095-1129) as far as its
equality and feature access go: the children of the `<analysis>` element,
the `lang` attribute of the `<form>` child, the `sfx` attribute of the
`<lemma>` child (`formLang`/`lemmaSfx` abstract `find('form').attrib` and
`find('lemma').attrib`, which `get_feature` reads), and the attributes of the
back-referenced `Word`. -/
structure Analysis where
  children : List XmlElem
  formLang : Option String
  lemmaSfx : Option String
  wordLabel : Option String
  wordText : String
  wordW : Nat
  wordC : Nat
  wordS : Nat
deriving DecidableEq, Repr

/-- Embedding of `Analysis.get_feature` (lines 1153-1174): `lang` and
`lemma_sfx` come from attributes, the names in `Word.features` from the word,
anything else from the first child element with that tag; a missing child is
Python's `ValueError`, modelled as `none`. -/
def get_feature (a : Analysis) (f : String) : Option Val :=
  if f = "lang" then some (.vs a.formLang)
  else if f = "lemma_sfx" then some (.vs a.lemmaSfx)
  else if f = "label" then some (.vs a.wordLabel)
  else if f = "word" then some (.vs (some a.wordText))
  else if f = "w" then some (.vn a.wordW)
  else if f = "c" then some (.vn a.wordC)
  else if f = "s" then some (.vn a.wordS)
  else
    match findElem a.children f with
    | none => none
    | some e => some (.vs e.text)

/-- `Analysis.raw_features` (lines 1353-1361): the child tags, sorted
ascending (Python `sorted`). -/
def raw_features (a : Analysis) : List String :=
  List.insertionSort (fun x y => x ≤ y) (a.children.map XmlElem.tag)

/-- Embedding of `Analysis.__eq__` (lines 1131-1145), the equality used by
`AnalysisList.dedupe`/`deduped` (via `set()`): equal `lang`, equal sorted raw
feature-tag lists, and equal `get_feature` value for every raw tag. -/
def analysisBeq (a b : Analysis) : Bool :=
  if get_feature a "lang" = get_feature b "lang" then
    if raw_features a = raw_features b then
      (raw_features a).all (fun f => get_feature a f == get_feature b f)
    else false
  else false

/-- A feature is present in a record when it is a raw child tag of the
analysis element, or is the always-present `lang` attribute delivered with
every response document (`lemma_sfx` is synthetic and the word features
belong to the `Word`, not the record). -/
def hasFeature (a : Analysis) (f : String) : Prop :=
  f = "lang" ∨ f ∈ a.children.map XmlElem.tag

instance (a : Analysis) (f : String) : Decidable (hasFeature a f) := by
  unfold hasFeature; infer_instance

/-- Embedding of `morpheuslib2.WordStream` (lines 613-822): the fields read
by `conv_acc`. `seps`, `terms`, `abbr_term` and `abbrs` are the per-language
punctuation configuration installed by `__init__`. -/
structure WordStream where
  label : Option String
  lang : String
  greek_mode : Option String
  mixed : Bool
  seps : List Char
  terms : List Char
  abbr_term : List Char
  abbrs : List (List Char)
  i : Nat
  c : Nat
  s : Nat
deriving DecidableEq, Repr

/-- `WordStream.abbr_check` (line 777). -/
def abbr_check (st : WordStream) (s : List Char) : Bool := st.abbrs.contains s

/-- Model of `Latin.is_letter` (lines 208-217, a Unicode cased letter whose
name says LATIN) on the Basic Latin range this development manipulates. -/
def latinIsLetter (c : Char) : Bool := c.isAlpha

/-- `WordStream.det_lang` (lines 784-795): in mixed mode classify the
stripped text, raising `LangError` if it is neither all Latin nor all Greek
letters; otherwise the stream's language. -/
def det_lang (st : WordStream) (s : List Char) : Except PyErr String :=
  if st.mixed then
    if s.all latinIsLetter then .ok "la"
    else if s.all UniGreek.is_letter then .ok "greek"
    else .error .langError
  else .ok st.lang

/-- Model of Python `str.rstrip(chars)`: drop trailing characters belonging
to `strip`. -/
def rstripChars (l : List Char) (strip : List Char) : List Char :=
  (l.reverse.dropWhile (fun c => strip.contains c)).reverse

/-- Embedding of `WordStream.conv_acc` (lines 797-822): turn the (stripped)
accumulator value into a `Word` and advance the ordinals. `s[-1]` on an empty
accumulator value is Python's `IndexError`. -/
def conv_acc (st : WordStream) (acc : List Char) :
    Except PyErr (Word × WordStream) :=
  match acc.getLast? with
  | none => .error .indexError
  | some t =>
    let u := rstripChars acc (st.seps ++ st.terms)
    match det_lang st u with
    | .error e => .error e
    | .ok lg =>
      let a : Word :=
        { label := st.label, word := u, lang := lg, greek_mode := st.greek_mode,
          term := if (st.seps ++ st.terms).contains t then some t else none,
          w := st.i, c := st.c, s := st.s }
      let c' :=
        if (st.seps ++ st.terms).contains t ∧
            ¬ abbr_check st (u ++ st.abbr_term) then st.c + 1 else st.c
      let s' :=
        if st.terms.contains t ∧
            ¬ abbr_check st (u ++ st.abbr_term) then st.s + 1 else st.s
      .ok (a, { st with c := c', s := s', i := st.i + 1 })

end Morpheus2

namespace Morpheus1

/-- Embedding of `morpheuslib.Word` (lines 252-276). -/
structure Word where
  label : Option String
  word : List Char
  lang : String
  w : Nat
  c : Nat
  s : Nat
deriving DecidableEq, Repr

/-- Embedding of `morpheuslib.Analysis` as far as `fix_pron` goes: the
per-record pronoun-fix-failure flag `pron_fix_err` (line 545), the children
of the `<analysis>` element, and the analysed word. -/
structure Analysis where
  pron_fix_err : Bool
  elem : List XmlElem
  word : Word
deriving DecidableEq, Repr

/-- `Analysis.pos` (lines 633-638): `find('pos').text`; a missing `<pos>`
child is Python's `AttributeError` (`None.text`). -/
def pos (a : Analysis) : Except PyErr (Option String) :=
  match findElem a.elem "pos" with
  | none => .error .attributeError
  | some e => .ok e.text

/-- `Analysis.lemma` (lines 640-645). -/
def lemma_val (a : Analysis) : Except PyErr (Option String) :=
  match findElem a.elem "lemma" with
  | none => .error .attributeError
  | some e => .ok e.text

/-- Embedding of `morpheuslib.Analysis.fix_pron` (lines 770-789), with the
pronoun lemma-to-person table (`Latin.get_prons()`, loaded from the external
`prons.la` file) passed as a parameter: for a Latin pronoun, look the lemma
up; a lookup failure (`KeyError`, also for a `None` lemma) sets
`pron_fix_err` instead of raising; success appends a `<person>` element. -/
def fix_pron (prons : List (String × String)) (a : Analysis) :
    Except PyErr Analysis :=
  match pos a with
  | .error e => .error e
  | .ok p =>
    if p = some "pron" ∧ a.word.lang = "la" then
      match lemma_val a with
      | .error e => .error e
      | .ok lem =>
        match (match lem with
               | some l =>
                 (prons.find? (fun (q : String × String) => q.1 == l)).map
                   (fun q => q.2)
               | none => (none : Option String)) with
        | some person =>
          .ok { a with elem := a.elem ++ [({ tag := "person", text := some person } : XmlElem)] }
        | none => .ok { a with pron_fix_err := true }
    else .ok a

end Morpheus1

namespace Morpheus2

/-- A cache key: the url form of the word paired with its language
(`Word.key_pair`, lines 879-884). -/
abbrev CacheKey := List Char × String

/-- Embedding of `ResponseErrorInfo` (lines 180-196): the `msg` and `code` of
the original `HTTPError`. -/
structure ResponseErrorInfo where
  msg : String
  code : Nat
deriving DecidableEq, Repr

/-- Embedding of `MorpheusUrl` (lines 960-981): the canonical key and the
request url string. -/
structure MorpheusUrl where
  key : CacheKey
  url : String
deriving DecidableEq, Repr

/-- The outcome of one `urllib.request.urlopen` call: a document, a
structured rejection from the endpoint (`HTTPError`), or a transport failure
(`URLError`). -/
inductive NetOutcome where
  | ok (text : String)
  | httpError (code : Nat) (msg : String)
  | urlError (msg : String)
deriving DecidableEq, Repr

/-- The remote side, as a function of the running request count (so that
retries may observe different outcomes) and the key requested. -/
def Net : Type := Nat → CacheKey → NetOutcome

/-- Embedding of `MorpheusResponse` (lines 1025-1048). -/
structure MorpheusResponse where
  url : MorpheusUrl
  text : Option String
  exn : Option ResponseErrorInfo
deriving DecidableEq, Repr

/-- `MorpheusResponse.is_ok` (line 1043): `exn is None`. -/
def MorpheusResponse.is_ok (r : MorpheusResponse) : Bool := r.exn = none

/-- `MorpheusResponse.key` (line 1050). -/
def MorpheusResponse.key (r : MorpheusResponse) : CacheKey := r.url.key

/-- Embedding of `Cache` (lines 1557-1818): the in-memory dict `pers`, the
dict last pickled to the cache file (`disk`), and the status message. -/
structure Cache where
  disk : List (CacheKey × MorpheusResponse)
  pers : List (CacheKey × MorpheusResponse)
  status : String
deriving DecidableEq, Repr

/-- Python `dict` insert-or-replace assignment on the association-list
model: replace in place if the key exists, else append. -/
def dictInsert (m : List (CacheKey × MorpheusResponse)) (k : CacheKey)
    (v : MorpheusResponse) : List (CacheKey × MorpheusResponse) :=
  if m.any (fun p => p.1 == k) then
    m.map (fun p => if p.1 == k then (k, v) else p)
  else m ++ [(k, v)]

/-- `Cache.lookup_key` (lines 1657-1669): the stored response, or `None`
(the `KeyError` is caught). -/
def Cache.lookup_key (c : Cache) (k : CacheKey) : Option MorpheusResponse :=
  (c.pers.find? (fun p => p.1 == k)).map (fun p => p.2)

/-- `Cache.cache` (lines 1615-1628): store the response under its key and set
the status message. -/
def Cache.cacheResp (c : Cache) (r : MorpheusResponse) : Cache :=
  { c with pers := dictInsert c.pers r.key r, status := "cache_changed" }

/-- The `cache is None` branch of `MorpheusUrl.fetch` (lines 998-1011): one
`urlopen` call; an `HTTPError` is converted to a not-ok response carrying a
`ResponseErrorInfo`, a `URLError` is re-raised. The second component counts
issued requests. -/
def fetchRaw (net : Net) (u : MorpheusUrl) (n : Nat) :
    Except PyErr MorpheusResponse × Nat :=
  match net n u.key with
  | .ok t => (.ok { url := u, text := some t, exn := none }, n + 1)
  | .httpError code msg =>
    (.ok { url := u, text := none, exn := some { msg := msg, code := code } }, n + 1)
  | .urlError msg => (.error (.urlError msg), n + 1)

/-- Embedding of `MorpheusUrl.fetch` (lines 985-1022). With a cache, a
stored ok response is returned without a request; a miss or a stored not-ok
response triggers a fresh fetch whose (non-raising) result is stored. -/
def MorpheusUrl.fetch (net : Net) (u : MorpheusUrl) (cache : Option Cache)
    (n : Nat) : Except PyErr MorpheusResponse × Option Cache × Nat :=
  match cache with
  | none =>
    match fetchRaw net u n with
    | (r, n') => (r, none, n')
  | some c =>
    match c.lookup_key u.key with
    | some resp =>
      if resp.is_ok then (.ok resp, some c, n)
      else
        match fetchRaw net u n with
        | (.ok r, n') => (.ok r, some (c.cacheResp r), n')
        | (.error e, n') => (.error e, some c, n')
    | none =>
      match fetchRaw net u n with
      | (.ok r, n') => (.ok r, some (c.cacheResp r), n')
      | (.error e, n') => (.error e, some c, n')

/-- Embedding of `MorpheusResponse.retry` (lines 1057-1068): an ok response
is returned as is, otherwise its url is fetched again. -/
def MorpheusResponse.retry (net : Net) (r : MorpheusResponse)
    (cache : Option Cache) (n : Nat) :
    Except PyErr MorpheusResponse × Option Cache × Nat :=
  if r.is_ok then (.ok r, cache, n)
  else MorpheusUrl.fetch net r.url cache n

/-- The round-0 list comprehension of `retry_all` (line 159):
`[url.fetch(cache) for url in urls]`; a raised exception aborts the whole
comprehension. -/
def fetchList (net : Net) (us : List MorpheusUrl) (cache : Option Cache)
    (n : Nat) :
    Except PyErr (List MorpheusResponse × Option Cache × Nat) :=
  match us with
  | [] => .ok ([], cache, n)
  | u :: rest =>
    match MorpheusUrl.fetch net u cache n with
    | (.error e, _, _) => .error e
    | (.ok r, cache', n') =>
      match fetchList net rest cache' n' with
      | .error e => .error e
      | .ok (rs, cache'', n'') => .ok (r :: rs, cache'', n'')

/-- The later-round list comprehension of `retry_all` (line 162):
`[resp.retry(cache) for resp in l]`. -/
def retryList (net : Net) (rs : List MorpheusResponse) (cache : Option Cache)
    (n : Nat) :
    Except PyErr (List MorpheusResponse × Option Cache × Nat) :=
  match rs with
  | [] => .ok ([], cache, n)
  | r :: rest =>
    match MorpheusResponse.retry net r cache n with
    | (.error e, _, _) => .error e
    | (.ok r', cache', n') =>
      match retryList net rest cache' n' with
      | .error e => .error e
      | .ok (rs', cache'', n'') => .ok (r' :: rs', cache'', n'')

/-- The `while` loop of `retry_all` (lines 157-170) after the first round:
`d` rounds have been performed on result list `l`, and `remaining`
(`max_tries - d`) further rounds are allowed. After each round the loop
returns `(d, l, True)` as soon as every response is ok; when the bound is
reached it returns `(d, l, False)` with the last-seen results. -/
def runRounds (net : Net) :
    Nat → List MorpheusResponse → Option Cache → Nat → Nat →
    Except PyErr (Nat × List MorpheusResponse × Bool)
  | remaining, l, cache, n, d =>
    if l.all (fun r => r.is_ok) then .ok (d, l, true)
    else
      match remaining with
      | 0 => .ok (d, l, false)
      | rem + 1 =>
        match retryList net l cache n with
        | .error e => .error e
        | .ok (l', cache', n') => runRounds net rem l' cache' n' (d + 1)

/-- Embedding of `retry_all` (lines 142-170). With `max_tries = 0` the
`while` body never runs and the final `return (d, l, False)` reads the
unassigned local `l`, raising Python's `UnboundLocalError`. -/
def retry_all (net : Net) (urls : List MorpheusUrl) (max_tries : Nat)
    (cache : Option Cache) (n : Nat) :
    Except PyErr (Nat × List MorpheusResponse × Bool) :=
  match max_tries with
  | 0 => .error .unboundLocalError
  | m + 1 =>
    match fetchList net urls cache n with
    | .error e => .error e
    | .ok (l, cache', n') => runRounds net m l cache' n' 1

/-- `Cache.CommitReport` (lines 1573-1574). -/
structure CommitReport where
  will_be_deleted : List CacheKey
  will_be_replaced : List CacheKey
  will_be_added : List CacheKey
deriving DecidableEq, Repr

/-- Embedding of `Cache.commit_report` (lines 1747-1772): re-read the
persisted snapshot, compare its key set with the in-memory key set, and
return the three lists; neither the snapshot nor the in-memory dict is
written, so the cache comes back unchanged. -/
def Cache.commit_report (c : Cache) : CommitReport × Cache :=
  let fkeys := c.disk.map (fun p => p.1)
  let mkeys := c.pers.map (fun p => p.1)
  ({ will_be_deleted := fkeys.filter (fun k => ¬ k ∈ mkeys),
     will_be_replaced := mkeys.filter (fun k => k ∈ fkeys),
     will_be_added := mkeys.filter (fun k => ¬ k ∈ fkeys) }, c)

/-- Embedding of `DbCache` (lines 1915-2045): the rows of the `cache`
table. -/
structure DbCache where
  rows : List (CacheKey × MorpheusResponse)
deriving DecidableEq, Repr

/-- `MorpheusResponse` has no attribute `word`: `MorpheusUrl.__init__`
(line 978) has the assignment `self.word = word` commented out and
`MorpheusResponse` stores only `url`, `text` and `exn`, so the calls
`resp.word()` in `DbCache.insert` (line 1952) and `DbCache.update`
(line 2026) raise Python's `AttributeError`. -/
def MorpheusResponse.wordAttr (_ : MorpheusResponse) : Except PyErr Word :=
  .error .attributeError

/-- Embedding of `DbCache.insert` (lines 1938-1955): key the row by
`resp.word().key_pair()` (which raises `AttributeError`, see
`MorpheusResponse.wordAttr`); an existing `(word, lang)` primary key would
raise `sqlite3.IntegrityError`. -/
def DbCache.insert (db : DbCache) (r : MorpheusResponse) :
    Except PyErr DbCache :=
  match r.wordAttr with
  | .error e => .error e
  | .ok w =>
    match url_form w.word w.lang w.greek_mode with
    | .error e => .error e
    | .ok u =>
      if db.rows.any (fun p => p.1 == (u, w.lang)) then .error .integrityError
      else .ok { rows := db.rows ++ [((u, w.lang), r)] }

/-- Embedding of `DbCache.update` (lines 2018-2029): after the
`resp.word()` attribute error, the statement itself is also broken — the SQL
text `update cache set resp = ? where word = ? and lang = l` compares `lang`
against the unquoted identifier `l`, and the table has no column `l`, so
sqlite3 raises `OperationalError`. -/
def DbCache.update (_db : DbCache) (r : MorpheusResponse) :
    Except PyErr DbCache :=
  match r.wordAttr with
  | .error e => .error e
  | .ok _ => .error .operationalError


/-- Embedding of `DbCache.cache` (lines 1957-1972): try `insert`, fall back
to `update` on `IntegrityError`, re-raise anything else. -/
def DbCache.cacheResp (db : DbCache) (r : MorpheusResponse) :
    Except PyErr DbCache :=
  match db.insert r with
  | .ok db' => .ok db'
  | .error .integrityError => db.update r
  | .error e => .error e

/-- `DbCache.lookup_word` (lines 1994-2006), with the word's key already
computed. -/
def DbCache.lookup_key (db : DbCache) (k : CacheKey) :
    Option MorpheusResponse :=
  (db.rows.find? (fun p => p.1 == k)).map (fun p => p.2)

end Morpheus2

/-- A concrete fixture: the analysis of a Latin pronoun whose lemma `hic`
will be looked up in the person table. -/
def pronTest : Morpheus1.Analysis :=
  { pron_fix_err := false,
    elem := [{ tag := "pos", text := some "pron" },
             { tag := "lemma", text := some "hic" }],
    word := { label := none, word := ['h', 'i', 'c'], lang := "la",
              w := 0, c := 0, s := 0 } }

/-- A concrete fixture: a Latin word stream (the punctuation configuration
installed by `WordStream.__init__` for `lang = 'la'`), with the abbreviation
list holding the praenomen `M.`, positioned at word 2 of clause 0 of
sentence 0. -/
def wsLaTest : Morpheus2.WordStream :=
  { label := some "Aen. i", lang := "la", greek_mode := none, mixed := false,
    seps := [',', ';', ':'], terms := ['.', '?'], abbr_term := ['.'],
    abbrs := [['M', '.']], i := 2, c := 0, s := 0 }

/-- A concrete fixture: a lookup url for the Latin word `arma`. -/
def urlTest : Morpheus2.MorpheusUrl :=
  { key := (['a', 'r', 'm', 'a'], "la"),
    url := "xmlmorph?lang=la&lookup=arma" }

/-- A concrete fixture: an empty cache. -/
def cacheTest : Morpheus2.Cache :=
  { disk := [], pers := [], status := "new cache" }

/-- A concrete fixture: a remote side that always serves a document. -/
def netTest : Morpheus2.Net := fun _ _ => .ok "<analyses/>"

/-- A concrete fixture: a remote side that always rejects with an HTTP 403. -/
def netHttpTest : Morpheus2.Net := fun _ _ => .httpError 403 "Forbidden"

/-- Well-formedness of a cache argument: every stored response lies under its
own key (which `Cache.cache` guarantees, storing `resp` under
`resp.key()`). -/
def CacheWF (oc : Option Morpheus2.Cache) : Prop :=
  ∀ c, oc = some c → ∀ p ∈ c.pers, p.2.key = p.1

/-- A remote side that never fails at the transport level (no `URLError`),
so that fetches classify as ok or retryable. -/
def NoFatal (net : Morpheus2.Net) : Prop :=
  ∀ m k msg, net m k ≠ .urlError msg

/-- A concrete fixture: the Unicode word with a perispomeni and an
enclitic-induced acute (decomposed `dw=ro/n`). -/
def uniAccTest : List Char :=
  [Char.ofNat 0x3B4, Char.ofNat 0x3C9, Char.ofNat 0x342, Char.ofNat 0x3C1,
   Char.ofNat 0x3BF, Char.ofNat 0x301, Char.ofNat 0x3BD]

/-- A concrete fixture: one analysis record of the Latin noun `arma`. -/
def anaTest : Morpheus2.Analysis :=
  { children := [{ tag := "form", text := some "arma" },
                 { tag := "lemma", text := some "arma" },
                 { tag := "pos", text := some "noun" }],
    formLang := some "la", lemmaSfx := none, wordLabel := none,
    wordText := "arma", wordW := 0, wordC := 0, wordS := 0 }

theorem rfindAux_eq_none_iff (c : Char) (l : List Char) :
    BetaCode.rfindAux c l = none ↔ l.count c = 0 := by
  induction l with
  | nil => simp [BetaCode.rfindAux]
  | cons x xs ih =>
    rw [List.count_cons]
    simp only [BetaCode.rfindAux]
    cases h : BetaCode.rfindAux c xs with
    | some i =>
      have hxs : xs.count c ≠ 0 := fun hc => by simp [ih.mpr hc] at h
      constructor
      · intro h1; simp at h1
      · intro h1
        simp only [beq_iff_eq] at h1
        omega
    | none =>
      have hxs : xs.count c = 0 := ih.mp h
      by_cases hx : x = c
      · simp [hx, hxs]
      · simp [hx, hxs]

theorem rfindAux_split (c : Char) (l : List Char) (i : Nat)
    (h : BetaCode.rfindAux c l = some i) :
    ∃ l₁ l₂, l = l₁ ++ c :: l₂ ∧ i = l₁.length ∧ l₂.count c = 0 := by
  induction l generalizing i with
  | nil => simp [BetaCode.rfindAux] at h
  | cons x xs ih =>
    simp only [BetaCode.rfindAux] at h
    cases hx : BetaCode.rfindAux c xs with
    | some j =>
      rw [hx] at h
      obtain ⟨l₁, l₂, he, hi, hc⟩ := ih j hx
      refine ⟨x :: l₁, l₂, by simp [he], ?_, hc⟩
      simp only [Option.some.injEq] at h
      simp [← h, hi]
    | none =>
      rw [hx] at h
      by_cases hxc : x = c
      · simp only [hxc, if_true, Option.some.injEq] at h
        refine ⟨[], xs, by simp [hxc], by simp [← h], ?_⟩
        exact (rfindAux_eq_none_iff c xs).mp hx
      · simp [hxc] at h

theorem fix_2nd_acute_removes_last_acute (w : List Char) (l₁ l₂ : List Char)
    (hw : w = l₁ ++ '/' :: l₂) (hfind : BetaCode.rfindAux '/' w = some l₁.length)
    (hn : w.count '/' + w.count '=' > 1) :
    BetaCode.fix_2nd_acute w = l₁ ++ l₂ := by
  unfold BetaCode.fix_2nd_acute
  rw [if_pos hn, hfind]
  show w.take l₁.length ++ w.drop (l₁.length + 1) = l₁ ++ l₂
  subst hw
  congr 1
  · exact List.take_left l₁ _
  · rw [show l₁ ++ '/' :: l₂ = (l₁ ++ ['/']) ++ l₂ by simp,
      show l₁.length + 1 = (l₁ ++ ['/']).length by simp]
    exact List.drop_left _ _

/-- C8 counterexample: on the BetaCode word `a=b=` (two circumflexes, no
acute), `rfind('/')` returns `-1`, the slice arithmetic produces
`word[:-1] + word`, and applying `fix_2nd_acute` twice differs from applying
it once. -/
theorem fix_2nd_acute_not_idempotent :
    BetaCode.fix_2nd_acute (BetaCode.fix_2nd_acute ['a', '=', 'b', '=']) ≠
      BetaCode.fix_2nd_acute ['a', '=', 'b', '='] := by decide

/-- The BetaCode half of the amended C8: `fix_2nd_acute` is idempotent on
every BetaCode word whose total accent count (acute `/` plus circumflex `=`)
is at most 1, or is exactly 2 with at least one acute present. -/
theorem fix_2nd_acute_idempotent (w : List Char)
    (h : w.count '/' + w.count '=' ≤ 1 ∨
         (w.count '/' + w.count '=' = 2 ∧ 1 ≤ w.count '/')) :
    BetaCode.fix_2nd_acute (BetaCode.fix_2nd_acute w) = BetaCode.fix_2nd_acute w := by
  rcases h with h | ⟨h2, h1⟩
  · have hfix : BetaCode.fix_2nd_acute w = w := by
      unfold BetaCode.fix_2nd_acute
      rw [if_neg (by omega)]
    rw [hfix, hfix]
  · have hne : BetaCode.rfindAux '/' w ≠ none := by
      intro h0
      rw [rfindAux_eq_none_iff] at h0
      omega
    obtain ⟨i, hi⟩ : ∃ i, BetaCode.rfindAux '/' w = some i := by
      cases hfind : BetaCode.rfindAux '/' w with
      | some j => exact ⟨j, rfl⟩
      | none => exact absurd hfind hne
    obtain ⟨l₁, l₂, hw, hil, hc2⟩ := rfindAux_split '/' w i hi
    have hfind : BetaCode.rfindAux '/' w = some l₁.length := by rw [hi, hil]
    have hgt : w.count '/' + w.count '=' > 1 := by omega
    have hfw := fix_2nd_acute_removes_last_acute w l₁ l₂ hw hfind hgt
    rw [hfw]
    have hca : w.count '/' = l₁.count '/' + l₂.count '/' + 1 := by
      rw [hw]; simp [List.count_append, List.count_cons]; omega
    have hcb : w.count '=' = l₁.count '=' + l₂.count '=' := by
      rw [hw]; simp [List.count_append, List.count_cons]
    unfold BetaCode.fix_2nd_acute
    rw [if_neg (by simp only [List.count_append]; omega)]

theorem take_drop_middle_removed (l₁ l₂ : List Char) (c : Char) :
    (l₁ ++ c :: l₂).take l₁.length ++ (l₁ ++ c :: l₂).drop (l₁.length + 1) =
      l₁ ++ l₂ := by
  congr 1
  · exact List.take_left l₁ _
  · rw [show l₁ ++ c :: l₂ = (l₁ ++ [c]) ++ l₂ by simp,
      show l₁.length + 1 = (l₁ ++ [c]).length by simp]
    exact List.drop_left _ _

theorem insertMark_perm (c : Char) (l : List Char) :
    List.Perm (insertMark c l) (c :: l) := by
  induction l with
  | nil => exact List.Perm.refl _
  | cons d ds ih =>
    unfold insertMark
    split
    · exact List.Perm.refl _
    · exact (ih.cons d).trans (List.Perm.swap c d ds)

theorem nfd_perm (l : List Char) : List.Perm (nfd l) l := by
  induction l with
  | nil => exact List.Perm.refl _
  | cons c rest ih =>
    have hstep : nfd (c :: rest) =
        if ccc c = 0 then c :: nfd rest else insertMark c (nfd rest) := rfl
    rw [hstep]
    split
    · exact ih.cons c
    · exact (insertMark_perm c (nfd rest)).trans (ih.cons c)

theorem uni_fix_removes_last_acute (nfc_fn : List Char → List Char)
    (w l₁ l₂ : List Char)
    (hw : nfd w = l₁ ++ Char.ofNat 0x301 :: l₂)
    (hfind : BetaCode.rfindAux (Char.ofNat 0x301) (nfd w) = some l₁.length)
    (hn : (nfd w).count (Char.ofNat 0x301) +
      (nfd w).count (Char.ofNat 0x342) > 1) :
    UniGreek.fix_2nd_acute nfc_fn w = nfc_fn (l₁ ++ l₂) := by
  unfold UniGreek.fix_2nd_acute
  rw [if_pos hn, hfind]
  show nfc_fn ((nfd w).take l₁.length ++ (nfd w).drop (l₁.length + 1)) = _
  rw [hw, take_drop_middle_removed]

/-- C8 (amended): in both Greek representations, the second-accent fix is
idempotent on every word whose total accent count — acute plus
circumflex/perispomeni, counted on the literal BetaCode string or on the
NFD form of the Unicode string respectively — is at most 1, or is exactly 2
with at least one acute present. (In general the claim fails in both
representations: with two or more accents and no acute, `rfind` returns
`-1` and the `w[:-1] + w` slice mangles the word, and with three or more
accents each application deletes a further acute.) The Unicode half holds
for every recomposition map `nfc_fn` that, like `unicodedata.normalize`'s
NFC, preserves canonical equivalence. -/
theorem fix_2nd_acute_idempotent_both :
    (∀ w : List Char,
      (w.count '/' + w.count '=' ≤ 1 ∨
        (w.count '/' + w.count '=' = 2 ∧ 1 ≤ w.count '/')) →
      BetaCode.fix_2nd_acute (BetaCode.fix_2nd_acute w) =
        BetaCode.fix_2nd_acute w) ∧
    (∀ nfc_fn : List Char → List Char, (∀ x, nfd (nfc_fn x) = nfd x) →
      ∀ w : List Char,
      ((nfd w).count (Char.ofNat 0x301) +
          (nfd w).count (Char.ofNat 0x342) ≤ 1 ∨
        ((nfd w).count (Char.ofNat 0x301) +
            (nfd w).count (Char.ofNat 0x342) = 2 ∧
          1 ≤ (nfd w).count (Char.ofNat 0x301))) →
      UniGreek.fix_2nd_acute nfc_fn (UniGreek.fix_2nd_acute nfc_fn w) =
        UniGreek.fix_2nd_acute nfc_fn w) := by
  constructor
  · exact fun w h => fix_2nd_acute_idempotent w h
  · intro nfc_fn hnfc w hcond
    rcases hcond with h1 | ⟨h2, ha⟩
    · have hfix : UniGreek.fix_2nd_acute nfc_fn w = w := by
        unfold UniGreek.fix_2nd_acute
        rw [if_neg (by omega)]
      rw [hfix, hfix]
    · have hne : BetaCode.rfindAux (Char.ofNat 0x301) (nfd w) ≠ none := by
        intro h0
        rw [rfindAux_eq_none_iff] at h0
        omega
      obtain ⟨i, hi⟩ : ∃ i, BetaCode.rfindAux (Char.ofNat 0x301) (nfd w) =
          some i := by
        cases hfind : BetaCode.rfindAux (Char.ofNat 0x301) (nfd w) with
        | some j => exact ⟨j, rfl⟩
        | none => exact absurd hfind hne
      obtain ⟨l₁, l₂, hw, hil, hc2⟩ := rfindAux_split _ _ i hi
      have hfind : BetaCode.rfindAux (Char.ofNat 0x301) (nfd w) =
          some l₁.length := by rw [hi, hil]
      have hfw := uni_fix_removes_last_acute nfc_fn w l₁ l₂ hw hfind (by omega)
      rw [hfw]
      have hbe : (Char.ofNat 0x301 == Char.ofNat 0x342) = false := by decide
      have hbe2 : (Char.ofNat 0x342 == Char.ofNat 0x301) = false := by decide
      have hca : (nfd w).count (Char.ofNat 0x301) =
          l₁.count (Char.ofNat 0x301) + l₂.count (Char.ofNat 0x301) + 1 := by
        rw [hw]
        simp [List.count_append, List.count_cons]
        omega
      have hcb : (nfd w).count (Char.ofNat 0x342) =
          l₁.count (Char.ofNat 0x342) + l₂.count (Char.ofNat 0x342) := by
        rw [hw]
        simp [List.count_append, List.count_cons, hbe, hbe2]
      have hsum : (l₁ ++ l₂).count (Char.ofNat 0x301) +
          (l₁ ++ l₂).count (Char.ofNat 0x342) = 1 := by
        simp only [List.count_append]
        omega
      have hkey : (nfd (nfc_fn (l₁ ++ l₂))).count (Char.ofNat 0x301) +
          (nfd (nfc_fn (l₁ ++ l₂))).count (Char.ofNat 0x342) = 1 := by
        rw [hnfc, (nfd_perm (l₁ ++ l₂)).count_eq,
          (nfd_perm (l₁ ++ l₂)).count_eq]
        exact hsum
      unfold UniGreek.fix_2nd_acute
      rw [if_neg (by omega)]

/-- Witness for C8: the theorem applied to the accented BetaCode word
`dw=ro/n` and to its decomposed Unicode form, with the identity as a
canonical-equivalence-preserving recomposition map. -/
theorem fix_2nd_acute_idempotent_both_witness :
    ((['d', 'w', '=', 'r', 'o', '/', 'n'].count '/' +
          ['d', 'w', '=', 'r', 'o', '/', 'n'].count '=' = 2 ∧
        1 ≤ ['d', 'w', '=', 'r', 'o', '/', 'n'].count '/') ∧
      BetaCode.fix_2nd_acute
          (BetaCode.fix_2nd_acute ['d', 'w', '=', 'r', 'o', '/', 'n']) =
        BetaCode.fix_2nd_acute ['d', 'w', '=', 'r', 'o', '/', 'n']) ∧
    ((∀ x, nfd (id x) = nfd x) ∧
      ((nfd uniAccTest).count (Char.ofNat 0x301) +
          (nfd uniAccTest).count (Char.ofNat 0x342) = 2 ∧
        1 ≤ (nfd uniAccTest).count (Char.ofNat 0x301)) ∧
      UniGreek.fix_2nd_acute id (UniGreek.fix_2nd_acute id uniAccTest) =
        UniGreek.fix_2nd_acute id uniAccTest) :=
  ⟨⟨by decide, fix_2nd_acute_idempotent_both.1 _ (Or.inr (by decide))⟩,
   ⟨fun x => rfl, by decide,
    fix_2nd_acute_idempotent_both.2 id (fun x => rfl) uniAccTest
      (Or.inr (by decide))⟩⟩

/-- C10 (code_bug): the store operation of the transactional cache never
reaches its update fallback. `DbCache.insert` keys the row by
`resp.word().key_pair()`, but `MorpheusResponse` has no `word` attribute
(the assignment in `MorpheusUrl.__init__` is commented out), so every store
raises `AttributeError` — and even past that, the update fallback's SQL
compares `lang` against the nonexistent column `l`. A lookup after a
key-collision store therefore never sees the new response. -/
theorem dbcache_never_stores (db : Morpheus2.DbCache)
    (r : Morpheus2.MorpheusResponse) :
    Morpheus2.DbCache.cacheResp db r = .error .attributeError := rfl

/-- C7 (confirmed): `commit_report()` returns the cache unchanged together
with exactly the three key sets: keys only in the persisted snapshot, keys in
both, and keys only in memory. -/
theorem commit_report_frame (c : Morpheus2.Cache) :
    ((Morpheus2.Cache.commit_report c).2 = c) ∧
    (∀ k, k ∈ (Morpheus2.Cache.commit_report c).1.will_be_deleted ↔
      (k ∈ c.disk.map (fun p => p.1) ∧ k ∉ c.pers.map (fun p => p.1))) ∧
    (∀ k, k ∈ (Morpheus2.Cache.commit_report c).1.will_be_replaced ↔
      (k ∈ c.pers.map (fun p => p.1) ∧ k ∈ c.disk.map (fun p => p.1))) ∧
    (∀ k, k ∈ (Morpheus2.Cache.commit_report c).1.will_be_added ↔
      (k ∈ c.pers.map (fun p => p.1) ∧ k ∉ c.disk.map (fun p => p.1))) := by
  refine ⟨rfl, ?_, ?_, ?_⟩ <;> intro k <;>
    simp only [Morpheus2.Cache.commit_report, List.mem_filter,
      decide_eq_true_eq]

/-- C2 (confirmed, morpheuslib's `Analysis.fix_pron`, which owns the
`pron_fix_err` flag): for a Latin pronoun analysis whose lemma is absent from
the pronoun person table, the fix returns normally (no exception), only sets
the failure flag, and the `person` feature stays absent. -/
theorem fix_pron_unknown_lemma (prons : List (String × String))
    (a : Morpheus1.Analysis) (l : String)
    (hpos : Morpheus1.pos a = .ok (some "pron"))
    (hlang : a.word.lang = "la")
    (hlem : Morpheus1.lemma_val a = .ok (some l))
    (habs : ∀ q ∈ prons, q.1 ≠ l)
    (hper : findElem a.elem "person" = none) :
    Morpheus1.fix_pron prons a = .ok { a with pron_fix_err := true } ∧
    ({ a with pron_fix_err := true } : Morpheus1.Analysis).pron_fix_err = true ∧
    findElem ({ a with pron_fix_err := true } : Morpheus1.Analysis).elem
      "person" = none := by
  refine ⟨?_, rfl, hper⟩
  unfold Morpheus1.fix_pron
  have hfind : prons.find? (fun (q : String × String) => q.1 == l) = none := by
    rw [List.find?_eq_none]
    intro q hq
    simp [habs q hq]
  rw [hpos, hlem]
  simp [hlang, hfind]

/-- Witness for C2: a Latin analysis of `hic` as a pronoun, with a person
table that does not contain the lemma. -/
theorem fix_pron_unknown_lemma_witness :
    (Morpheus1.pos pronTest = .ok (some "pron")) ∧
    (Morpheus1.fix_pron [("is", "3rd")] pronTest =
      .ok { pronTest with pron_fix_err := true }) :=
  ⟨rfl,
    (fix_pron_unknown_lemma [("is", "3rd")] pronTest "hic" rfl rfl rfl
      (by decide) rfl).1⟩

/-- C6 (confirmed, morpheuslib2's `WordStream.conv_acc`): for an emitted
word, the clause ordinal advances exactly when the last raw accumulated
character was a separator or terminator and the stripped text plus the
abbreviation-terminator suffix is not a known abbreviation; the sentence
ordinal advances exactly when that character was a terminator and the same
exception does not apply. -/
theorem conv_acc_ordinal_advance (st : Morpheus2.WordStream) (acc : List Char)
    (w : Morpheus2.Word) (st' : Morpheus2.WordStream)
    (h : Morpheus2.conv_acc st acc = .ok (w, st')) :
    (st'.c = st.c + 1 ↔
      (∃ t, acc.getLast? = some t ∧ (st.seps ++ st.terms).contains t = true) ∧
        Morpheus2.abbr_check st
          (Morpheus2.rstripChars acc (st.seps ++ st.terms) ++ st.abbr_term)
          = false) ∧
    (st'.s = st.s + 1 ↔
      (∃ t, acc.getLast? = some t ∧ st.terms.contains t = true) ∧
        Morpheus2.abbr_check st
          (Morpheus2.rstripChars acc (st.seps ++ st.terms) ++ st.abbr_term)
          = false) := by
  cases hlast : acc.getLast? with
  | none =>
    simp only [Morpheus2.conv_acc, hlast] at h
    exact Except.noConfusion h
  | some t =>
    simp only [Morpheus2.conv_acc, hlast] at h
    cases hdl : Morpheus2.det_lang st
        (Morpheus2.rstripChars acc (st.seps ++ st.terms)) with
    | error e =>
      rw [hdl] at h
      exact Except.noConfusion h
    | ok lg =>
      rw [hdl] at h
      simp only [Except.ok.injEq, Prod.mk.injEq] at h
      obtain ⟨-, hst⟩ := h
      subst hst
      constructor
      · by_cases hc : ((st.seps ++ st.terms).contains t = true ∧
            ¬ Morpheus2.abbr_check st
              (Morpheus2.rstripChars acc (st.seps ++ st.terms) ++ st.abbr_term)
              = true)
        · dsimp only
          rw [if_pos hc]
          refine iff_of_true rfl ⟨⟨t, rfl, hc.1⟩, by simpa using hc.2⟩
        · dsimp only
          rw [if_neg hc]
          refine iff_of_false (by omega) ?_
          rintro ⟨⟨t', ht', hmem⟩, habbr⟩
          cases ht'
          exact hc ⟨hmem, by simp [habbr]⟩
      · by_cases hc : (st.terms.contains t = true ∧
            ¬ Morpheus2.abbr_check st
              (Morpheus2.rstripChars acc (st.seps ++ st.terms) ++ st.abbr_term)
              = true)
        · dsimp only
          rw [if_pos hc]
          refine iff_of_true rfl ⟨⟨t, rfl, hc.1⟩, by simpa using hc.2⟩
        · dsimp only
          rw [if_neg hc]
          refine iff_of_false (by omega) ?_
          rintro ⟨⟨t', ht', hmem⟩, habbr⟩
          cases ht'
          exact hc ⟨hmem, by simp [habbr]⟩

/-- Witness for C6: tokenizing the clause-final word `cano.` of the fixture
stream both advances the clause ordinal and the sentence ordinal. -/
theorem conv_acc_ordinal_advance_witness :
    ∃ w st', Morpheus2.conv_acc wsLaTest ['c', 'a', 'n', 'o', '.'] =
        .ok (w, st') ∧
      ((st'.c = wsLaTest.c + 1 ↔
        (∃ t, (['c', 'a', 'n', 'o', '.'] : List Char).getLast? = some t ∧
            (wsLaTest.seps ++ wsLaTest.terms).contains t = true) ∧
          Morpheus2.abbr_check wsLaTest
            (Morpheus2.rstripChars ['c', 'a', 'n', 'o', '.']
              (wsLaTest.seps ++ wsLaTest.terms) ++ wsLaTest.abbr_term)
            = false) ∧
      (st'.s = wsLaTest.s + 1 ↔
        (∃ t, (['c', 'a', 'n', 'o', '.'] : List Char).getLast? = some t ∧
            wsLaTest.terms.contains t = true) ∧
          Morpheus2.abbr_check wsLaTest
            (Morpheus2.rstripChars ['c', 'a', 'n', 'o', '.']
              (wsLaTest.seps ++ wsLaTest.terms) ++ wsLaTest.abbr_term)
            = false)) :=
  ⟨_, _, rfl, conv_acc_ordinal_advance wsLaTest _ _ _ rfl⟩

theorem find?_map_replace
    (m : List (Morpheus2.CacheKey × Morpheus2.MorpheusResponse))
    (k : Morpheus2.CacheKey) (v : Morpheus2.MorpheusResponse)
    (h : m.any (fun p => p.1 == k) = true) :
    (m.map (fun p => if p.1 == k then (k, v) else p)).find?
      (fun p => p.1 == k) = some (k, v) := by
  induction m with
  | nil => exact absurd h (by simp)
  | cons p m ih =>
    by_cases hp : (p.1 == k) = true
    · have hpk : p.1 = k := by simpa using hp
      simp [List.find?_cons, hpk]
    · have h' : m.any (fun p => p.1 == k) = true := by
        simp only [List.any_cons, hp, Bool.false_or] at h
        exact h
      simp only [List.map_cons, if_neg hp]
      rw [List.find?_cons]
      simp only [hp, Bool.false_eq_true, if_false]
      exact ih h'

theorem find?_append_single
    (m : List (Morpheus2.CacheKey × Morpheus2.MorpheusResponse))
    (k : Morpheus2.CacheKey) (v : Morpheus2.MorpheusResponse)
    (h : m.any (fun p => p.1 == k) = false) :
    (m ++ [(k, v)]).find? (fun p => p.1 == k) = some (k, v) := by
  induction m with
  | nil => simp [List.find?_cons]
  | cons p m ih =>
    simp only [List.any_cons, Bool.or_eq_false_iff] at h
    rw [List.cons_append, List.find?_cons]
    simp only [h.1, Bool.false_eq_true, if_false]
    exact ih h.2

theorem find?_dictInsert (m : List (Morpheus2.CacheKey × Morpheus2.MorpheusResponse))
    (k : Morpheus2.CacheKey) (v : Morpheus2.MorpheusResponse) :
    (Morpheus2.dictInsert m k v).find? (fun p => p.1 == k) = some (k, v) := by
  unfold Morpheus2.dictInsert
  split
  · rename_i h
    exact find?_map_replace m k v h
  · rename_i h
    rw [Bool.not_eq_true] at h
    exact find?_append_single m k v h

theorem lookup_key_cacheResp (c : Morpheus2.Cache)
    (r : Morpheus2.MorpheusResponse) :
    (c.cacheResp r).lookup_key r.key = some r := by
  unfold Morpheus2.Cache.cacheResp Morpheus2.Cache.lookup_key
  simp [find?_dictInsert]

/-- C3 (confirmed): `MorpheusUrl.fetch` with a cache first consults the cache
under the word's canonical key: a stored ok response is returned with no
remote request; on a miss or a stored retryable failure a fresh fetch is
performed (one request), its result — success or retryable failure — is
stored under the key, and that result is returned; consequently two calls in
sequence for the same uncached word issue exactly one request in total. -/
theorem fetch_with_cache_spec (net : Morpheus2.Net)
    (u : Morpheus2.MorpheusUrl) (c : Morpheus2.Cache) (n : Nat) :
    (∀ r, c.lookup_key u.key = some r → r.is_ok = true →
      Morpheus2.MorpheusUrl.fetch net u (some c) n = (.ok r, some c, n)) ∧
    (∀ t, (c.lookup_key u.key = none ∨
        ∃ r, c.lookup_key u.key = some r ∧ r.is_ok = false) →
      net n u.key = .ok t →
      Morpheus2.MorpheusUrl.fetch net u (some c) n =
        (.ok { url := u, text := some t, exn := none },
         some (c.cacheResp { url := u, text := some t, exn := none }),
         n + 1)) ∧
    (∀ code msg, (c.lookup_key u.key = none ∨
        ∃ r, c.lookup_key u.key = some r ∧ r.is_ok = false) →
      net n u.key = .httpError code msg →
      Morpheus2.MorpheusUrl.fetch net u (some c) n =
        (.ok { url := u, text := none, exn := some { msg := msg, code := code } },
         some (c.cacheResp
           { url := u, text := none, exn := some { msg := msg, code := code } }),
         n + 1)) ∧
    (∀ t, c.lookup_key u.key = none → net n u.key = .ok t →
      ∃ r c', Morpheus2.MorpheusUrl.fetch net u (some c) n =
          (.ok r, some c', n + 1) ∧
        Morpheus2.MorpheusUrl.fetch net u (some c') (n + 1) =
          (.ok r, some c', n + 1)) := by
  refine ⟨?_, ?_, ?_, ?_⟩
  · intro r hl hok
    simp [Morpheus2.MorpheusUrl.fetch, hl, hok]
  · intro t hl hnet
    rcases hl with hl | ⟨r, hl, hnok⟩
    · simp [Morpheus2.MorpheusUrl.fetch, hl, Morpheus2.fetchRaw, hnet]
    · simp [Morpheus2.MorpheusUrl.fetch, hl, Morpheus2.fetchRaw, hnet, hnok]
  · intro code msg hl hnet
    rcases hl with hl | ⟨r, hl, hnok⟩
    · simp [Morpheus2.MorpheusUrl.fetch, hl, Morpheus2.fetchRaw, hnet]
    · simp [Morpheus2.MorpheusUrl.fetch, hl, Morpheus2.fetchRaw, hnet, hnok]
  · intro t hl hnet
    refine ⟨{ url := u, text := some t, exn := none },
      c.cacheResp { url := u, text := some t, exn := none }, ?_, ?_⟩
    · simp [Morpheus2.MorpheusUrl.fetch, hl, Morpheus2.fetchRaw, hnet]
    · have hl' : (c.cacheResp { url := u, text := some t, exn := none
          }).lookup_key u.key = some { url := u, text := some t, exn := none } :=
        lookup_key_cacheResp c _
      simp [Morpheus2.MorpheusUrl.fetch, hl', Morpheus2.MorpheusResponse.is_ok]

/-- Witness for C3: the second fetch of `arma` through an initially empty
cache is served from the cache, with exactly one request issued in total. -/
theorem fetch_with_cache_spec_witness :
    cacheTest.lookup_key urlTest.key = none ∧
    netTest 0 urlTest.key = .ok "<analyses/>" ∧
    (∃ r c', Morpheus2.MorpheusUrl.fetch netTest urlTest (some cacheTest) 0 =
        (.ok r, some c', 0 + 1) ∧
      Morpheus2.MorpheusUrl.fetch netTest urlTest (some c') (0 + 1) =
        (.ok r, some c', 0 + 1)) :=
  ⟨rfl, rfl,
    (fetch_with_cache_spec netTest urlTest cacheTest 0).2.2.2 "<analyses/>"
      rfl rfl⟩

/-- C4 (confirmed): a structured rejection from the endpoint (`HTTPError`)
becomes a returned retryable response carrying the rejection's code and
message, without re-raising; any other transport failure (`URLError`)
propagates as a raised fatal error; and a fatal failure during a cached
fetch leaves the cache exactly as it was. -/
theorem fetch_error_classification (net : Morpheus2.Net)
    (u : Morpheus2.MorpheusUrl) (n : Nat) :
    (∀ code msg, net n u.key = .httpError code msg →
      Morpheus2.fetchRaw net u n =
        (.ok { url := u, text := none, exn := some { msg := msg, code := code } },
         n + 1)) ∧
    (∀ msg, net n u.key = .urlError msg →
      Morpheus2.fetchRaw net u n = (.error (.urlError msg), n + 1)) ∧
    (∀ (c : Morpheus2.Cache) msg,
      (∀ r, c.lookup_key u.key = some r → r.is_ok = false) →
      net n u.key = .urlError msg →
      Morpheus2.MorpheusUrl.fetch net u (some c) n =
        (.error (.urlError msg), some c, n + 1)) := by
  refine ⟨?_, ?_, ?_⟩
  · intro code msg hnet
    simp [Morpheus2.fetchRaw, hnet]
  · intro msg hnet
    simp [Morpheus2.fetchRaw, hnet]
  · intro c msg hnok hnet
    cases hl : c.lookup_key u.key with
    | none => simp [Morpheus2.MorpheusUrl.fetch, hl, Morpheus2.fetchRaw, hnet]
    | some r =>
      simp [Morpheus2.MorpheusUrl.fetch, hl, hnok r hl, Morpheus2.fetchRaw,
        hnet]

/-- Witness for C4: an HTTP 403 rejection of the `arma` lookup is returned
as a retryable response carrying code 403 and message `Forbidden`. -/
theorem fetch_error_classification_witness :
    netHttpTest 0 urlTest.key = .httpError 403 "Forbidden" ∧
    Morpheus2.fetchRaw netHttpTest urlTest 0 =
      (.ok { url := urlTest, text := none,
             exn := some { msg := "Forbidden", code := 403 } }, 0 + 1) :=
  ⟨rfl,
    (fetch_error_classification netHttpTest urlTest 0).1 403 "Forbidden" rfl⟩

theorem lookup_key_key (c : Morpheus2.Cache) (k : Morpheus2.CacheKey)
    (r : Morpheus2.MorpheusResponse)
    (hwf : ∀ p ∈ c.pers, p.2.key = p.1)
    (h : c.lookup_key k = some r) : r.key = k := by
  unfold Morpheus2.Cache.lookup_key at h
  cases hf : c.pers.find? (fun p => p.1 == k) with
  | none => rw [hf] at h; exact Option.noConfusion h
  | some q =>
    rw [hf] at h
    simp only [Option.map_some', Option.some.injEq] at h
    have hq := List.mem_of_find?_eq_some hf
    have hpred := List.find?_some hf
    rw [← h, hwf q hq]
    simpa using hpred

theorem cacheWF_cacheResp (c : Morpheus2.Cache)
    (r : Morpheus2.MorpheusResponse)
    (h : ∀ p ∈ c.pers, p.2.key = p.1) :
    ∀ p ∈ (c.cacheResp r).pers, p.2.key = p.1 := by
  intro p hp
  unfold Morpheus2.Cache.cacheResp Morpheus2.dictInsert at hp
  split at hp
  · obtain ⟨q, hq, hfq⟩ := List.mem_map.mp hp
    by_cases hqk : (q.1 == r.key) = true
    · rw [if_pos hqk] at hfq
      rw [← hfq]
    · rw [if_neg hqk] at hfq
      rw [← hfq]
      exact h q hq
  · rcases List.mem_append.mp hp with hmem | hmem
    · exact h p hmem
    · rw [List.mem_singleton.mp hmem]

theorem fetch_ok_shape (net : Morpheus2.Net) (hnf : NoFatal net)
    (u : Morpheus2.MorpheusUrl) (oc : Option Morpheus2.Cache) (n : Nat)
    (hwf : CacheWF oc) :
    ∃ r oc' n', Morpheus2.MorpheusUrl.fetch net u oc n = (.ok r, oc', n') ∧
      r.key = u.key ∧ CacheWF oc' := by
  cases oc with
  | none =>
    cases hnet : net n u.key with
    | ok t =>
      exact ⟨{ url := u, text := some t, exn := none }, none, n + 1,
        by simp [Morpheus2.MorpheusUrl.fetch, Morpheus2.fetchRaw, hnet], rfl,
        hwf⟩
    | httpError code msg =>
      exact ⟨{ url := u, text := none, exn := some { msg := msg, code := code } },
        none, n + 1,
        by simp [Morpheus2.MorpheusUrl.fetch, Morpheus2.fetchRaw, hnet], rfl,
        hwf⟩
    | urlError msg => exact absurd hnet (hnf n u.key msg)
  | some c =>
    have hwfc : ∀ p ∈ c.pers, p.2.key = p.1 := hwf c rfl
    cases hl : c.lookup_key u.key with
    | some resp =>
      by_cases hok : resp.is_ok = true
      · refine ⟨resp, some c, n,
          by simp [Morpheus2.MorpheusUrl.fetch, hl, hok],
          lookup_key_key c u.key resp hwfc hl, hwf⟩
      · cases hnet : net n u.key with
        | ok t =>
          refine ⟨{ url := u, text := some t, exn := none },
            some (c.cacheResp { url := u, text := some t, exn := none }),
            n + 1, ?_, rfl, ?_⟩
          · simp [Morpheus2.MorpheusUrl.fetch, hl, hok, Morpheus2.fetchRaw, hnet]
          · intro c' hc'
            cases hc'
            exact cacheWF_cacheResp c _ hwfc
        | httpError code msg =>
          refine ⟨{ url := u, text := none, exn := some { msg := msg, code := code } },
            some (c.cacheResp
              { url := u, text := none, exn := some { msg := msg, code := code } }),
            n + 1, ?_, rfl, ?_⟩
          · simp [Morpheus2.MorpheusUrl.fetch, hl, hok, Morpheus2.fetchRaw, hnet]
          · intro c' hc'
            cases hc'
            exact cacheWF_cacheResp c _ hwfc
        | urlError msg => exact absurd hnet (hnf n u.key msg)
    | none =>
      cases hnet : net n u.key with
      | ok t =>
        refine ⟨{ url := u, text := some t, exn := none },
          some (c.cacheResp { url := u, text := some t, exn := none }),
          n + 1, ?_, rfl, ?_⟩
        · simp [Morpheus2.MorpheusUrl.fetch, hl, Morpheus2.fetchRaw, hnet]
        · intro c' hc'
          cases hc'
          exact cacheWF_cacheResp c _ hwfc
      | httpError code msg =>
        refine ⟨{ url := u, text := none, exn := some { msg := msg, code := code } },
          some (c.cacheResp
            { url := u, text := none, exn := some { msg := msg, code := code } }),
          n + 1, ?_, rfl, ?_⟩
        · simp [Morpheus2.MorpheusUrl.fetch, hl, Morpheus2.fetchRaw, hnet]
        · intro c' hc'
          cases hc'
          exact cacheWF_cacheResp c _ hwfc
      | urlError msg => exact absurd hnet (hnf n u.key msg)

theorem retry_ok_shape (net : Morpheus2.Net) (hnf : NoFatal net)
    (r : Morpheus2.MorpheusResponse) (oc : Option Morpheus2.Cache) (n : Nat)
    (hwf : CacheWF oc) :
    ∃ r' oc' n', Morpheus2.MorpheusResponse.retry net r oc n =
        (.ok r', oc', n') ∧ r'.key = r.key ∧ CacheWF oc' := by
  by_cases hok : r.is_ok = true
  · exact ⟨r, oc, n, by simp [Morpheus2.MorpheusResponse.retry, hok], rfl, hwf⟩
  · obtain ⟨r', oc', n', heq, hkey, hwf'⟩ := fetch_ok_shape net hnf r.url oc n hwf
    exact ⟨r', oc', n',
      by simp [Morpheus2.MorpheusResponse.retry, hok, heq], hkey, hwf'⟩

theorem fetchList_shape (net : Morpheus2.Net) (hnf : NoFatal net)
    (us : List Morpheus2.MorpheusUrl) :
    ∀ (oc : Option Morpheus2.Cache) (n : Nat), CacheWF oc →
    ∃ l oc' n', Morpheus2.fetchList net us oc n = .ok (l, oc', n') ∧
      List.Forall₂
        (fun (r : Morpheus2.MorpheusResponse) (u : Morpheus2.MorpheusUrl) =>
          r.key = u.key) l us ∧
      CacheWF oc' := by
  induction us with
  | nil => exact fun oc n hwf => ⟨[], oc, n, rfl, .nil, hwf⟩
  | cons u rest ih =>
    intro oc n hwf
    obtain ⟨r, oc1, n1, heq, hkey, hwf1⟩ := fetch_ok_shape net hnf u oc n hwf
    obtain ⟨l, oc2, n2, heq2, hall, hwf2⟩ := ih oc1 n1 hwf1
    exact ⟨r :: l, oc2, n2, by simp [Morpheus2.fetchList, heq, heq2],
      .cons hkey hall, hwf2⟩

theorem retryList_shape (net : Morpheus2.Net) (hnf : NoFatal net)
    (rs : List Morpheus2.MorpheusResponse) :
    ∀ (oc : Option Morpheus2.Cache) (n : Nat), CacheWF oc →
    ∃ l oc' n', Morpheus2.retryList net rs oc n = .ok (l, oc', n') ∧
      List.Forall₂
        (fun (a b : Morpheus2.MorpheusResponse) => a.key = b.key) l rs ∧
      CacheWF oc' := by
  induction rs with
  | nil => exact fun oc n hwf => ⟨[], oc, n, rfl, .nil, hwf⟩
  | cons r rest ih =>
    intro oc n hwf
    obtain ⟨r', oc1, n1, heq, hkey, hwf1⟩ := retry_ok_shape net hnf r oc n hwf
    obtain ⟨l, oc2, n2, heq2, hall, hwf2⟩ := ih oc1 n1 hwf1
    exact ⟨r' :: l, oc2, n2, by simp [Morpheus2.retryList, heq, heq2],
      .cons hkey hall, hwf2⟩

theorem forall₂_keyRR_trans {l1 l2 l3 : List Morpheus2.MorpheusResponse}
    (h12 : List.Forall₂
      (fun (a b : Morpheus2.MorpheusResponse) => a.key = b.key) l1 l2)
    (h23 : List.Forall₂
      (fun (a b : Morpheus2.MorpheusResponse) => a.key = b.key) l2 l3) :
    List.Forall₂
      (fun (a b : Morpheus2.MorpheusResponse) => a.key = b.key) l1 l3 := by
  induction h12 generalizing l3 with
  | nil => cases h23; exact .nil
  | cons hab htl ih =>
    cases h23 with
    | cons hbc htl' => exact .cons (hab.trans hbc) (ih htl')

theorem forall₂_keyRU_trans {l1 l2 : List Morpheus2.MorpheusResponse}
    {us : List Morpheus2.MorpheusUrl}
    (h12 : List.Forall₂
      (fun (a b : Morpheus2.MorpheusResponse) => a.key = b.key) l1 l2)
    (h2u : List.Forall₂
      (fun (r : Morpheus2.MorpheusResponse) (u : Morpheus2.MorpheusUrl) =>
        r.key = u.key) l2 us) :
    List.Forall₂
      (fun (r : Morpheus2.MorpheusResponse) (u : Morpheus2.MorpheusUrl) =>
        r.key = u.key) l1 us := by
  induction h12 generalizing us with
  | nil => cases h2u; exact .nil
  | cons hab htl ih =>
    cases h2u with
    | cons hbu htl' => exact .cons (hab.trans hbu) (ih htl')

theorem runRounds_shape (net : Morpheus2.Net) (hnf : NoFatal net) :
    ∀ (remaining : Nat) (l : List Morpheus2.MorpheusResponse)
      (oc : Option Morpheus2.Cache) (n d : Nat), CacheWF oc →
    ∃ d' l' flag, Morpheus2.runRounds net remaining l oc n d =
        .ok (d', l', flag) ∧
      d ≤ d' ∧ d' ≤ d + remaining ∧
      List.Forall₂
        (fun (a b : Morpheus2.MorpheusResponse) => a.key = b.key) l' l ∧
      (flag = true ↔ l'.all (fun r => r.is_ok) = true) := by
  intro remaining
  induction remaining with
  | zero =>
    intro l oc n d hwf
    by_cases hall : l.all (fun r => r.is_ok) = true
    · exact ⟨d, l, true, by simp [Morpheus2.runRounds, hall], le_refl d,
        Nat.le_add_right d 0,
        List.forall₂_same.mpr (fun a _ => rfl), by simp [hall]⟩
    · exact ⟨d, l, false, by simp [Morpheus2.runRounds, hall], le_refl d,
        Nat.le_add_right d 0,
        List.forall₂_same.mpr (fun a _ => rfl), by simp [hall]⟩
  | succ rem ih =>
    intro l oc n d hwf
    by_cases hall : l.all (fun r => r.is_ok) = true
    · exact ⟨d, l, true, by simp [Morpheus2.runRounds, hall], le_refl d,
        Nat.le_add_right d _,
        List.forall₂_same.mpr (fun a _ => rfl), by simp [hall]⟩
    · obtain ⟨l1, oc1, n1, heqL, hkeys, hwf1⟩ :=
        retryList_shape net hnf l oc n hwf
      obtain ⟨d', l', flag, heq, hd1, hd2, hall', hflag⟩ :=
        ih l1 oc1 n1 (d + 1) hwf1
      refine ⟨d', l', flag, ?_, by omega, by omega,
        forall₂_keyRR_trans hall' hkeys, hflag⟩
      simp [Morpheus2.runRounds, hall, heqL, heq]

/-- C5 counterexample: `retry_all` with `max_attempts = 0` does not return an
attempt count, result list and flag at all — the `while` body never runs and
the final `return (d, l, False)` reads the unassigned local `l`, raising
`UnboundLocalError`. -/
theorem retry_all_zero_raises :
    Morpheus2.retry_all netTest [urlTest] 0 none 0 =
      .error .unboundLocalError := rfl

/-- C5 (amended): for `max_attempts ≥ 1` (and a transport layer that does
not fail fatally, so that the run is not aborted), `retry_all` never
re-fetches an entry that is already ok (first conjunct: `retry` returns it
untouched, issuing no request), performs between 1 and `max_attempts`
rounds, and returns the attempt count, a result list in the same order as
the input urls (position by position the response is for that url's key),
and a flag that is true exactly when every entry became ok; exceeding the
bound returns the last-seen results with the flag false rather than raising.
With `max_attempts = 0` the claim fails: the code raises
`UnboundLocalError`. -/
theorem retry_all_spec (net : Morpheus2.Net)
    (urls : List Morpheus2.MorpheusUrl) (maxTries : Nat)
    (oc : Option Morpheus2.Cache) (n : Nat)
    (hmax : 1 ≤ maxTries) (hwf : CacheWF oc) (hnf : NoFatal net) :
    (∀ (r : Morpheus2.MorpheusResponse) (oc0 : Option Morpheus2.Cache)
        (n0 : Nat), r.is_ok = true →
      Morpheus2.MorpheusResponse.retry net r oc0 n0 = (.ok r, oc0, n0)) ∧
    (∃ d l flag, Morpheus2.retry_all net urls maxTries oc n =
        .ok (d, l, flag) ∧
      1 ≤ d ∧ d ≤ maxTries ∧
      List.Forall₂
        (fun (r : Morpheus2.MorpheusResponse) (u : Morpheus2.MorpheusUrl) =>
          r.key = u.key) l urls ∧
      (flag = true ↔ l.all (fun r => r.is_ok) = true)) := by
  constructor
  · intro r oc0 n0 hok
    simp [Morpheus2.MorpheusResponse.retry, hok]
  · cases maxTries with
    | zero => omega
    | succ m =>
      obtain ⟨l0, oc1, n1, heqF, hkeys0, hwf1⟩ :=
        fetchList_shape net hnf urls oc n hwf
      obtain ⟨d, l, flag, heqR, hd1, hd2, hkeys, hflag⟩ :=
        runRounds_shape net hnf m l0 oc1 n1 1 hwf1
      exact ⟨d, l, flag, by simp [Morpheus2.retry_all, heqF, heqR], hd1,
        by omega, forall₂_keyRU_trans hkeys hkeys0, hflag⟩

/-- Witness for C5: one url, one allowed attempt, no cache, a remote side
that always answers. -/
theorem retry_all_spec_witness :
    (1 ≤ 1) ∧ CacheWF none ∧ NoFatal netTest ∧
    ((∀ (r : Morpheus2.MorpheusResponse) (oc0 : Option Morpheus2.Cache)
        (n0 : Nat), r.is_ok = true →
      Morpheus2.MorpheusResponse.retry netTest r oc0 n0 = (.ok r, oc0, n0)) ∧
    (∃ d l flag, Morpheus2.retry_all netTest [urlTest] 1 none 0 =
        .ok (d, l, flag) ∧
      1 ≤ d ∧ d ≤ 1 ∧
      List.Forall₂
        (fun (r : Morpheus2.MorpheusResponse) (u : Morpheus2.MorpheusUrl) =>
          r.key = u.key) l [urlTest] ∧
      (flag = true ↔ l.all (fun r => r.is_ok) = true))) :=
  ⟨Nat.le_refl 1,
   fun _ hc => Option.noConfusion hc,
   fun _ _ _ h => Morpheus2.NetOutcome.noConfusion h,
   retry_all_spec netTest [urlTest] 1 none 0 (Nat.le_refl 1)
     (fun _ hc => Option.noConfusion hc)
     (fun _ _ _ h => Morpheus2.NetOutcome.noConfusion h)⟩

theorem mem_raw_features (a : Morpheus2.Analysis) (f : String) :
    f ∈ Morpheus2.raw_features a ↔ f ∈ a.children.map XmlElem.tag := by
  unfold Morpheus2.raw_features
  exact (List.perm_insertionSort _ _).mem_iff

theorem raw_features_eq_iff (a b : Morpheus2.Analysis)
    (ha : (a.children.map XmlElem.tag).Nodup)
    (hb : (b.children.map XmlElem.tag).Nodup) :
    Morpheus2.raw_features a = Morpheus2.raw_features b ↔
      ∀ f, f ∈ a.children.map XmlElem.tag ↔ f ∈ b.children.map XmlElem.tag := by
  constructor
  · intro h f
    rw [← mem_raw_features, ← mem_raw_features, h]
  · intro h
    have hperm : List.Perm (a.children.map XmlElem.tag)
        (b.children.map XmlElem.tag) :=
      (List.perm_ext_iff_of_nodup ha hb).mpr h
    exact List.eq_of_perm_of_sorted
      ((List.perm_insertionSort _ _).trans
        (hperm.trans (List.perm_insertionSort _ _).symm))
      (List.sorted_insertionSort _ _) (List.sorted_insertionSort _ _)

/-- C1 (confirmed): `Analysis.__eq__`, the equality `dedupe` relies on, holds
iff the two records have the same language, the same raw feature-tag list
and the same `get_feature` value for every tag in it; and, for records whose
raw tags are duplicate-free and do not shadow the `lang` attribute (true of
every Morpheus response document), equivalently iff every feature present in
either record (a raw tag, or the always-present `lang`) is present in both
with the same value. -/
theorem analysis_eq_dedup (a b : Morpheus2.Analysis)
    (ha : (a.children.map XmlElem.tag).Nodup)
    (hb : (b.children.map XmlElem.tag).Nodup)
    (hla : "lang" ∉ a.children.map XmlElem.tag)
    (hlb : "lang" ∉ b.children.map XmlElem.tag) :
    (Morpheus2.analysisBeq a b = true ↔
      (Morpheus2.get_feature a "lang" = Morpheus2.get_feature b "lang" ∧
       Morpheus2.raw_features a = Morpheus2.raw_features b ∧
       ∀ f ∈ Morpheus2.raw_features a,
         Morpheus2.get_feature a f = Morpheus2.get_feature b f)) ∧
    (Morpheus2.analysisBeq a b = true ↔
      ∀ f, (Morpheus2.hasFeature a f ∨ Morpheus2.hasFeature b f) →
        (Morpheus2.hasFeature a f ∧ Morpheus2.hasFeature b f ∧
         Morpheus2.get_feature a f = Morpheus2.get_feature b f)) := by
  have h1 : Morpheus2.analysisBeq a b = true ↔
      (Morpheus2.get_feature a "lang" = Morpheus2.get_feature b "lang" ∧
       Morpheus2.raw_features a = Morpheus2.raw_features b ∧
       ∀ f ∈ Morpheus2.raw_features a,
         Morpheus2.get_feature a f = Morpheus2.get_feature b f) := by
    unfold Morpheus2.analysisBeq
    by_cases hL : Morpheus2.get_feature a "lang" = Morpheus2.get_feature b "lang"
    · rw [if_pos hL]
      by_cases hR : Morpheus2.raw_features a = Morpheus2.raw_features b
      · rw [if_pos hR]
        simp only [List.all_eq_true, beq_iff_eq]
        exact ⟨fun h => ⟨hL, hR, h⟩, fun h => h.2.2⟩
      · rw [if_neg hR]
        simp [hR]
    · rw [if_neg hL]
      simp [hL]
  refine ⟨h1, h1.trans ⟨?_, ?_⟩⟩
  · rintro ⟨hL, hR, hV⟩ f hf
    by_cases hfl : f = "lang"
    · subst hfl
      exact ⟨Or.inl rfl, Or.inl rfl, hL⟩
    · have hmem : ∀ g, g ∈ a.children.map XmlElem.tag ↔
          g ∈ b.children.map XmlElem.tag :=
        (raw_features_eq_iff a b ha hb).mp hR
      have hfa : f ∈ a.children.map XmlElem.tag := by
        rcases hf with hf | hf
        · rcases hf with hf | hf
          · exact absurd hf hfl
          · exact hf
        · rcases hf with hf | hf
          · exact absurd hf hfl
          · exact (hmem f).mpr hf
      exact ⟨Or.inr hfa, Or.inr ((hmem f).mp hfa),
        hV f ((mem_raw_features a f).mpr hfa)⟩
  · intro h
    refine ⟨(h "lang" (Or.inl (Or.inl rfl))).2.2, ?_, ?_⟩
    · refine (raw_features_eq_iff a b ha hb).mpr (fun g => ⟨?_, ?_⟩)
      · intro hg
        have hng : g ≠ "lang" := fun hgl => hla (hgl ▸ hg)
        rcases (h g (Or.inl (Or.inr hg))).2.1 with hgl | hgb
        · exact absurd hgl hng
        · exact hgb
      · intro hg
        have hng : g ≠ "lang" := fun hgl => hlb (hgl ▸ hg)
        rcases (h g (Or.inr (Or.inr hg))).1 with hgl | hga
        · exact absurd hgl hng
        · exact hga
    · intro f hf
      have hfa : f ∈ a.children.map XmlElem.tag := (mem_raw_features a f).mp hf
      exact (h f (Or.inl (Or.inr hfa))).2.2

/-- Witness for C1: the theorem applied to the fixture record compared with
itself (nodup tags, no `lang` child). -/
theorem analysis_eq_dedup_witness :
    ((anaTest.children.map XmlElem.tag).Nodup ∧
     "lang" ∉ anaTest.children.map XmlElem.tag) ∧
    ((Morpheus2.analysisBeq anaTest anaTest = true ↔
      (Morpheus2.get_feature anaTest "lang" =
          Morpheus2.get_feature anaTest "lang" ∧
       Morpheus2.raw_features anaTest = Morpheus2.raw_features anaTest ∧
       ∀ f ∈ Morpheus2.raw_features anaTest,
         Morpheus2.get_feature anaTest f = Morpheus2.get_feature anaTest f)) ∧
    (Morpheus2.analysisBeq anaTest anaTest = true ↔
      ∀ f, (Morpheus2.hasFeature anaTest f ∨ Morpheus2.hasFeature anaTest f) →
        (Morpheus2.hasFeature anaTest f ∧ Morpheus2.hasFeature anaTest f ∧
         Morpheus2.get_feature anaTest f = Morpheus2.get_feature anaTest f))) :=
  ⟨⟨by decide, by decide⟩,
    analysis_eq_dedup anaTest anaTest (by decide) (by decide) (by decide)
      (by decide)⟩

theorem map_id_of_mem (l : List Char) (F : Char → Char)
    (h : ∀ c ∈ l, F c = c) : l.map F = l := by
  induction l with
  | nil => rfl
  | cons c rest ih =>
    rw [List.map_cons, h c (List.mem_cons_self c rest),
      ih (fun x hx => h x (List.mem_cons_of_mem c hx))]

theorem dropWhile_eq_self_of_neg (p : Char → Bool) (m : List Char)
    (h : ∀ c ∈ m, p c = false) : m.dropWhile p = m := by
  cases m with
  | nil => rfl
  | cons x xs =>
    rw [List.dropWhile_cons]
    simp [h x (List.mem_cons_self x xs)]

theorem rstripSpace_eq_self (l : List Char)
    (h : ∀ c ∈ l, c.isWhitespace = false) : rstripSpace l = l := by
  unfold rstripSpace
  rw [dropWhile_eq_self_of_neg _ _ (fun c hc => h c (List.mem_reverse.mp hc)),
    List.reverse_reverse]

theorem sigmaFix_ne_nil (l : List Char) (h : l ≠ []) : sigmaFix l ≠ [] := by
  unfold sigmaFix
  split
  · simp
  · exact h

theorem mem_sigmaFix (l : List Char) (c : Char) (h : c ∈ sigmaFix l) :
    c ∈ l ∨ c = UniGreek.final_sigma := by
  unfold sigmaFix at h
  split at h
  · rcases List.mem_append.mp h with hm | hm
    · exact Or.inl ((List.dropLast_sublist l).subset hm)
    · exact Or.inr (List.mem_singleton.mp hm)
  · exact Or.inl h

theorem toUnicodeCore_lower (s : List Char) :
    ∀ fuel, s.length ≤ fuel →
    (∀ c ∈ s, c ∈ BetaCode.beta_ll ++ BetaCode.beta_diac) →
    BetaCode.toUnicodeCore false fuel s =
      .ok (s.map (BetaCode.convLcChar false)) := by
  induction s with
  | nil =>
    intro fuel _ _
    cases fuel <;> rfl
  | cons c rest ih =>
    intro fuel hf hc
    cases fuel with
    | zero => simp at hf
    | succ f =>
      have hcm := hc c (List.mem_cons_self c rest)
      have hstar : ¬ c = BetaCode.uc_shift := by
        have hAll : ∀ x ∈ BetaCode.beta_ll ++ BetaCode.beta_diac,
            ¬ x = BetaCode.uc_shift := by decide
        exact hAll c hcm
      have hrec := ih f (by simpa using hf)
        (fun x hx => hc x (List.mem_cons_of_mem c hx))
      simp only [BetaCode.toUnicodeCore, if_neg hstar, hrec]
      by_cases ha : pyIsAlpha c = true
      · simp [ha]
      · have hAll2 : ∀ x ∈ BetaCode.beta_ll ++ BetaCode.beta_diac,
            ¬ pyIsAlpha x = true →
            BetaCode.trans x = BetaCode.convLcChar false x := by decide
        simp [ha, hAll2 c hcm ha]

theorem to_unicode_lower (s : List Char) (hne : s ≠ [])
    (hc : ∀ c ∈ s, c ∈ BetaCode.beta_ll ++ BetaCode.beta_diac) :
    BetaCode.to_unicode s false =
      .ok (sigmaFix (s.map (BetaCode.convLcChar false))) := by
  unfold BetaCode.to_unicode
  rw [toUnicodeCore_lower s s.length (le_refl _) hc]
  have hwhite : ∀ x ∈ s.map (BetaCode.convLcChar false),
      x.isWhitespace = false := by
    intro x hx
    obtain ⟨y, hy, hxy⟩ := List.mem_map.mp hx
    have hAll : ∀ z ∈ BetaCode.beta_ll ++ BetaCode.beta_diac,
        (BetaCode.convLcChar false z).isWhitespace = false := by decide
    rw [← hxy]
    exact hAll y (hc y hy)
  have hmapne : s.map (BetaCode.convLcChar false) ≠ [] := by
    cases s with
    | nil => exact absurd rfl hne
    | cons a l => simp
  dsimp only
  rw [rstripSpace_eq_self _ hwhite]
  unfold sigmaFix
  cases hx : (s.map (BetaCode.convLcChar false)).getLast? with
  | none =>
    exact absurd (List.getLast?_eq_none_iff.mp hx) hmapne
  | some x =>
    by_cases hs : x = UniGreek.sigma
    · simp [hs]
    · simp [hs]

theorem toBetacodeCore_lower (u : List Char) :
    ∀ fuel, u.length ≤ fuel →
    (∀ c ∈ u, c ∈ UniGreek.greek_ll ++ UniGreek.greek_diac) →
    UniGreek.toBetacodeCore "preserve" fuel u = .ok (u.map UniGreek.trans) := by
  induction u with
  | nil =>
    intro fuel _ _
    cases fuel <;> rfl
  | cons c rest ih =>
    intro fuel hf hc
    cases fuel with
    | zero => simp at hf
    | succ f =>
      have hcm := hc c (List.mem_cons_self c rest)
      have hup : ¬ pyIsUpper c = true := by
        have hAll : ∀ x ∈ UniGreek.greek_ll ++ UniGreek.greek_diac,
            ¬ pyIsUpper x = true := by decide
        exact hAll c hcm
      have hrec := ih f (by simpa using hf)
        (fun x hx => hc x (List.mem_cons_of_mem c hx))
      simp only [UniGreek.toBetacodeCore, if_neg hup, hrec]
      by_cases ha : pyIsAlpha c = true
      · simp [ha, UniGreek.convLcB]
      · simp [ha]

theorem to_betacode_lower (u : List Char) (hnfd : nfd u = u)
    (hu : ∀ c ∈ u, c ∈ UniGreek.greek_ll ++ UniGreek.greek_diac) :
    UniGreek.to_betacode u "preserve" = .ok (u.map UniGreek.trans) := by
  unfold UniGreek.to_betacode
  rw [hnfd, toBetacodeCore_lower u u.length (le_refl _) hu]
  have hwhite : ∀ x ∈ u.map UniGreek.trans, x.isWhitespace = false := by
    intro x hx
    obtain ⟨y, hy, hxy⟩ := List.mem_map.mp hx
    have hAll : ∀ z ∈ UniGreek.greek_ll ++ UniGreek.greek_diac,
        (UniGreek.trans z).isWhitespace = false := by decide
    rw [← hxy]
    exact hAll y (hu y hy)
  dsimp only
  rw [rstripSpace_eq_self _ hwhite]

/-- C9 counterexample: `*a` consists only of letters of the BetaCode
alphabet (`is_letter` accepts the shift marker), `to_unicode` maps it to the
single upper-case letter `Α`, and `to_betacode` then crashes with an
`IndexError` (its scanning loop reads past the end of the string after an
upper-case letter with nothing following), so the round trip does not
reproduce `to_unicode('*a')`. -/
theorem round_trip_not_stable :
    (∀ c ∈ (['*', 'a'] : List Char), BetaCode.is_letter c = true) ∧
    roundTrip ['*', 'a'] "preserve" false ≠
      BetaCode.to_unicode ['*', 'a'] false := by
  constructor
  · decide
  · have h1 : roundTrip ['*', 'a'] "preserve" false = .error .indexError := rfl
    have h2 : BetaCode.to_unicode ['*', 'a'] false =
        .ok [Char.ofNat 0x391] := rfl
    rw [h1, h2]
    exact fun h => Except.noConfusion h

/-- C9 (amended): for every nonempty BetaCode string of lower-case letters
and diacritics (no upper-case shift marker) whose Unicode image is already in
canonical NFD order (no combining mark of lower combining class after one of
higher class, e.g. no iota subscript before an accent),
`to_unicode(to_betacode(to_unicode(s), mode))` with case-preserving mode
reproduces `to_unicode(s)` exactly. In general the claim fails: a string
whose conversion ends in an upper-case letter makes `to_betacode` raise
`IndexError`, the empty string makes `to_unicode` raise, and NFD reorders
out-of-order mark sequences. -/
theorem round_trip_stable (s : List Char) (hne : s ≠ [])
    (hc : ∀ c ∈ s, c ∈ BetaCode.beta_ll ++ BetaCode.beta_diac)
    (hnfd : ∀ u, BetaCode.to_unicode s false = .ok u → nfd u = u) :
    roundTrip s "preserve" false = BetaCode.to_unicode s false := by
  have hu := to_unicode_lower s hne hc
  have hwmem : ∀ c ∈ s.map (BetaCode.convLcChar false),
      c ∈ UniGreek.greek_ll ++ UniGreek.greek_diac ∧
        c ≠ UniGreek.final_sigma := by
    intro c hx
    obtain ⟨y, hy, hxy⟩ := List.mem_map.mp hx
    have hAll : ∀ z ∈ BetaCode.beta_ll ++ BetaCode.beta_diac,
        BetaCode.convLcChar false z ∈ UniGreek.greek_ll ++ UniGreek.greek_diac ∧
          ¬ BetaCode.convLcChar false z = UniGreek.final_sigma := by decide
    rw [← hxy]
    exact ⟨(hAll y (hc y hy)).1, (hAll y (hc y hy)).2⟩
  have humem : ∀ c ∈ sigmaFix (s.map (BetaCode.convLcChar false)),
      c ∈ UniGreek.greek_ll ++ UniGreek.greek_diac := by
    intro c hx
    rcases mem_sigmaFix _ c hx with hm | hm
    · exact (hwmem c hm).1
    · rw [hm]; decide
  have hb := to_betacode_lower _ (hnfd _ hu) humem
  have hbmem : ∀ c ∈ (sigmaFix (s.map (BetaCode.convLcChar false))).map
      UniGreek.trans, c ∈ BetaCode.beta_ll ++ BetaCode.beta_diac := by
    intro c hx
    obtain ⟨y, hy, hxy⟩ := List.mem_map.mp hx
    have hAll : ∀ z ∈ UniGreek.greek_ll ++ UniGreek.greek_diac,
        UniGreek.trans z ∈ BetaCode.beta_ll ++ BetaCode.beta_diac := by decide
    rw [← hxy]
    exact hAll y (humem y hy)
  have hwne : s.map (BetaCode.convLcChar false) ≠ [] := by
    cases s with
    | nil => exact absurd rfl hne
    | cons a l => simp
  have hbne : (sigmaFix (s.map (BetaCode.convLcChar false))).map
      UniGreek.trans ≠ [] := by
    have := sigmaFix_ne_nil _ hwne
    cases hs : sigmaFix (s.map (BetaCode.convLcChar false)) with
    | nil => exact absurd hs this
    | cons a l => simp
  have hu2 := to_unicode_lower _ hbne hbmem
  have hcomp : ((sigmaFix (s.map (BetaCode.convLcChar false))).map
        UniGreek.trans).map (BetaCode.convLcChar false) =
      (sigmaFix (s.map (BetaCode.convLcChar false))).map
        (fun c => BetaCode.convLcChar false (UniGreek.trans c)) := by
    rw [List.map_map]
    rfl
  have hidw : ∀ c ∈ s.map (BetaCode.convLcChar false),
      BetaCode.convLcChar false (UniGreek.trans c) = c := by
    intro c hcm
    obtain ⟨z, hz, hcz⟩ := List.mem_map.mp hcm
    have hid : ∀ z ∈ BetaCode.beta_ll ++ BetaCode.beta_diac,
        BetaCode.convLcChar false
          (UniGreek.trans (BetaCode.convLcChar false z)) =
          BetaCode.convLcChar false z := by decide
    rw [← hcz]
    exact hid z (hc z hz)
  have hrestore : sigmaFix (((sigmaFix (s.map (BetaCode.convLcChar false))).map
        UniGreek.trans).map (BetaCode.convLcChar false)) =
      sigmaFix (s.map (BetaCode.convLcChar false)) := by
    rw [hcomp]
    have hfs : BetaCode.convLcChar false (UniGreek.trans UniGreek.final_sigma) =
        UniGreek.sigma := by decide
    set w := s.map (BetaCode.convLcChar false) with hw
    unfold sigmaFix
    by_cases hlast : w.getLast? = some UniGreek.sigma
    · rw [if_pos hlast]
      have hdrop : (w.dropLast ++ [UniGreek.final_sigma]).map
          (fun c => BetaCode.convLcChar false (UniGreek.trans c)) =
          w.dropLast ++ [UniGreek.sigma] := by
        rw [List.map_append,
          map_id_of_mem _ _
            (fun c hcm => hidw c ((List.dropLast_sublist w).subset hcm))]
        simp [hfs]
      rw [hdrop]
      rw [if_pos (by rw [List.getLast?_concat])]
      rw [List.dropLast_concat]
    · rw [if_neg hlast]
      have hwid : w.map (fun c => BetaCode.convLcChar false (UniGreek.trans c)) =
          w := map_id_of_mem w _ hidw
      rw [hwid, if_neg hlast]
  unfold roundTrip
  rw [hu]
  dsimp only
  rw [hb]
  dsimp only
  rw [hu2, hrestore]

/-- Witness for C9: the round trip on the BetaCode word `logos` (whose
Unicode form `λογος` ends in final sigma and is NFD-stable). -/
theorem round_trip_stable_witness :
    ("logos".toList ≠ [] ∧
     (∀ c ∈ "logos".toList, c ∈ BetaCode.beta_ll ++ BetaCode.beta_diac) ∧
     (∀ u, BetaCode.to_unicode "logos".toList false = .ok u → nfd u = u)) ∧
    roundTrip "logos".toList "preserve" false =
      BetaCode.to_unicode "logos".toList false := by
  have hnf : ∀ u, BetaCode.to_unicode "logos".toList false = .ok u →
      nfd u = u := by
    intro u h
    have h0 : BetaCode.to_unicode "logos".toList false =
        Except.ok [Char.ofNat 0x3BB, Char.ofNat 0x3BF, Char.ofNat 0x3B3,
          Char.ofNat 0x3BF, Char.ofNat 0x3C2] := rfl
    rw [h0] at h
    cases h
    decide
  exact ⟨⟨by decide, by decide, hnf⟩,
    round_trip_stable _ (by decide) (by decide) hnf⟩
